import Mathlib

/-! The chunked reader/hasher and the symbol scanner of evrfindsymbols.

A shallow embedding of `main.go`: `SymbolScanner.ScanBytes`, the read loop of
`processFile`, and the replace-then-append step of `main`, together with the
parts of Go's `bytes` package and of the `io.Reader` contract they rely on.
-/

namespace EvrFindSymbols

/-- A byte of a Go `[]byte`. -/
abbrev Byte := Fin 256

/-- A Go `string` used as a map key: an arbitrary byte sequence, compared bytewise. -/
abbrev Symbol := List Byte

/-- The keys of a `map[string]bool` in which only `true` is ever stored; a `nil`
map and an empty map are both the empty set. -/
abbrev SymbolSet := Finset Symbol

/-- The constant `prefixPattern = "OlPrEfIx"` as bytes. -/
def prefixPattern : List Byte := [79, 108, 80, 114, 69, 102, 73, 120]

/-! ## Go's `bytes` package -/

/-- Go's `bytes.HasPrefix(s, sep)`. -/
def HasPrefix : List Byte → List Byte → Bool
  | _, [] => true
  | [], _ :: _ => false
  | c :: s, d :: sep => c == d && HasPrefix s sep

/-- Go's `bytes.Index(s, sep)`: the offset of the first occurrence of `sep` in `s`;
`none` stands for Go's `-1`. -/
def Index : List Byte → List Byte → Option Nat
  | [], sep => if HasPrefix [] sep then some 0 else none
  | c :: s, sep =>
    if HasPrefix (c :: s) sep then some 0 else (Index s sep).map (· + 1)

/-- The loop of `bytes.Count(s, sep)` for a separator of length at least two:
`n++` and `s = s[i+len(sep):]` for as long as `Index` finds an occurrence.  The
first argument bounds the number of iterations. -/
def countLoop (sep : List Byte) : Nat → List Byte → Nat
  | 0, _ => 0
  | fuel + 1, s =>
    match Index s sep with
    | none => 0
    | some i => countLoop sep fuel (s.drop (i + sep.length)) + 1

/-- Go's `bytes.Count(s, sep)` for a non-empty separator: the number of
non-overlapping occurrences.  Every iteration of its loop removes at least
`len(sep)` bytes, so `len(s)` iterations suffice. -/
def Count (s sep : List Byte) : Nat := countLoop sep s.length s

/-- The loop `for i < n { m := Index(s, sep); if m < 0 { break }; a[i] = s[:m];
s = s[m+len(sep):]; i++ }; a[i] = s` of `bytes.genSplit` with `sepSave = 0`; the
first argument is `n - i`. -/
def genSplitLoop (sep : List Byte) : Nat → List Byte → List (List Byte)
  | 0, s => [s]
  | k + 1, s =>
    match Index s sep with
    | none => [s]
    | some m => s.take m :: genSplitLoop sep k (s.drop (m + sep.length))

/-- Go's `bytes.Split(s, sep)` = `genSplit(s, sep, 0, -1)` for a non-empty separator:
`n = Count(s, sep) + 1`, capped at `len(s) + 1`, and the loop runs while
`i < n - 1`. -/
def Split (s sep : List Byte) : List (List Byte) :=
  genSplitLoop sep (min (Count s sep + 1) (s.length + 1) - 1) s

/-! ## `SymbolScanner.ScanBytes` -/

/-- Go's `error` values that occur in the program. -/
inductive Error where
  | eof
  | io (msg : String)
  deriving DecidableEq, Repr

/-- The inner loop `for i, c := range b { if c == 0 { ...; break } }`: the index
of the first zero byte of `b`, if there is one. -/
def firstZero : List Byte → Option Nat
  | [] => none
  | c :: b => if c = 0 then some 0 else (firstZero b).map (· + 1)

/-- The body of the loop over the segments: `symbols[string(b[:i])] = true` at
the first zero byte of `b`, nothing when `b` has no zero byte. -/
def scanSegment (symbols : SymbolSet) (b : List Byte) : SymbolSet :=
  match firstZero b with
  | some i => insert (b.take i) symbols
  | none => symbols

/-- The method `SymbolScanner.ScanBytes(data, symbols)`: the pair `(map, error)` it returns;
`none` is Go's `nil` error. -/
def ScanBytes (data : List Byte) (symbols : SymbolSet) : SymbolSet × Option Error :=
  if data.length = 0 then (symbols, none)
  else ((Split data prefixPattern).foldl scanSegment symbols, none)

/-! ## SHA-256 and `%x`

The hasher is Go's `crypto/sha256`, a standard-library package; it is modelled
after FIPS 180-4 on 32-bit words kept as natural numbers below `2 ^ 32`. -/

/-- The round constants of SHA-256, the first 32 bits of the fractional parts of
the cube roots of the first 64 primes, in decimal. -/
def sha256K : List Nat := [
  1116352408, 1899447441, 3049323471, 3921009573, 961987163, 1508970993,
  2453635748, 2870763221, 3624381080, 310598401, 607225278, 1426881987,
  1925078388, 2162078206, 2614888103, 3248222580, 3835390401, 4022224774,
  264347078, 604807628, 770255983, 1249150122, 1555081692, 1996064986,
  2554220882, 2821834349, 2952996808, 3210313671, 3336571891, 3584528711,
  113926993, 338241895, 666307205, 773529912, 1294757372, 1396182291,
  1695183700, 1986661051, 2177026350, 2456956037, 2730485921, 2820302411,
  3259730800, 3345764771, 3516065817, 3600352804, 4094571909, 275423344,
  430227734, 506948616, 659060556, 883997877, 958139571, 1322822218,
  1537002063, 1747873779, 1955562222, 2024104815, 2227730452, 2361852424,
  2428436474, 2756734187, 3204031479, 3329325298]

/-- The initial hash value of SHA-256, the first 32 bits of the fractional parts
of the square roots of the first 8 primes, in decimal. -/
def sha256Init : List Nat :=
  [1779033703, 3144134277, 1013904242, 2773480762,
   1359893119, 2600822924, 528734635, 1541459225]

/-- Truncation to a 32-bit word. -/
def w32 (x : Nat) : Nat := x % 2 ^ 32

/-- Rotation of a 32-bit word to the right by `n` bits. -/
def rotr (x n : Nat) : Nat := w32 ((x >>> n) ||| (x <<< (32 - n)))

/-- The functions Σ0, Σ1, σ0, σ1, Ch and Maj of FIPS 180-4, section 4.1.2. -/
def bigSigma0 (x : Nat) : Nat := rotr x 2 ^^^ rotr x 13 ^^^ rotr x 22

/-- See `bigSigma0`. -/
def bigSigma1 (x : Nat) : Nat := rotr x 6 ^^^ rotr x 11 ^^^ rotr x 25

/-- See `bigSigma0`. -/
def smallSigma0 (x : Nat) : Nat := rotr x 7 ^^^ rotr x 18 ^^^ (x >>> 3)

/-- See `bigSigma0`. -/
def smallSigma1 (x : Nat) : Nat := rotr x 17 ^^^ rotr x 19 ^^^ (x >>> 10)

/-- See `bigSigma0`. -/
def ch (x y z : Nat) : Nat := (x &&& y) ^^^ ((x ^^^ (2 ^ 32 - 1)) &&& z)

/-- See `bigSigma0`. -/
def maj (x y z : Nat) : Nat := (x &&& y) ^^^ (x &&& z) ^^^ (y &&& z)

/-- The `n` low-order bytes of `x`, most significant first. -/
def beBytes : Nat → Nat → List Nat
  | 0, _ => []
  | n + 1, x => (x / 256 ^ n) % 256 :: beBytes n x

/-- The number with the given big-endian bytes. -/
def beWord (bs : List Nat) : Nat := bs.foldl (fun a b => a * 256 + b) 0

/-- Padding: the byte `0x80`, zero bytes up to 56 modulo 64, and the length of the
message in bits as eight bytes. -/
def sha256Pad (msg : List Nat) : List Nat :=
  msg ++ [0x80] ++ List.replicate ((55 + 64 - msg.length % 64) % 64) 0 ++ beBytes 8 (8 * msg.length)

/-- The first `n` consecutive groups of `k` elements of a list. -/
def groups (k : Nat) : Nat → List Nat → List (List Nat)
  | 0, _ => []
  | n + 1, l => l.take k :: groups k n (l.drop k)

/-- The message schedule, newest word first, extended by `n` words. -/
def schedule : Nat → List Nat → List Nat
  | 0, w => w
  | n + 1, w =>
    schedule n (w32 (smallSigma1 (w.getD 1 0) + w.getD 6 0 + smallSigma0 (w.getD 14 0) + w.getD 15 0) :: w)

/-- One round of the compression function on the working variables `a` to `h`;
`kw` is the round constant and the schedule word. -/
def sha256Round (s : List Nat) (kw : Nat × Nat) : List Nat :=
  match s with
  | [a, b, c, d, e, f, g, h] =>
    let t1 := h + bigSigma1 e + ch e f g + kw.1 + kw.2
    let t2 := bigSigma0 a + maj a b c
    [w32 (t1 + t2), a, b, c, w32 (d + t1), e, f, g]
  | _ => s

/-- The compression of one 64-byte block into the hash value `h`. -/
def sha256Block (h : List Nat) (block : List Nat) : List Nat :=
  let w := (schedule 48 ((groups 4 16 block).map beWord).reverse).reverse
  List.zipWith (fun x y => w32 (x + y)) h ((sha256K.zip w).foldl sha256Round h)

/-- The 32 bytes of `sha256.Sum` over the bytes written to the hasher. -/
def sha256 (msg : List Byte) : List Nat :=
  let p := sha256Pad (msg.map Fin.val)
  ((groups 64 (p.length / 64) p).foldl sha256Block sha256Init).flatMap (beBytes 4)

/-- A lowercase hexadecimal digit. -/
def hexDigit (n : Nat) : Char := "0123456789abcdef".data.getD n '0'

/-- The format `%x` of a byte slice: two lowercase hexadecimal digits per byte. -/
def hex (bs : List Nat) : String := String.mk (bs.flatMap fun b => [hexDigit (b / 16), hexDigit (b % 16)])

/-- The value of `fmt.Sprintf("%x", hasher.Sum(nil))` after `msg` has been written
to the hasher. -/
def sha256hex (msg : List Byte) : String := hex (sha256 msg)

/-! ## The input file as `Read` sees it -/

/-- An open input file: the bytes not yet delivered, the error every `Read`
reports once they are used up (`io.EOF` for a file that simply ends, another
error for one that cannot be read), and upper bounds on the number of bytes the
next calls of `Read` deliver (an `io.Reader` may return fewer bytes than asked
for; with no bound left a `Read` fills its buffer as far as bytes remain). -/
structure File where
  data : List Byte
  endErr : Error
  short : List Nat
  deriving DecidableEq

/-- The call `file.Read(p)` for a slice `p` of length `n`: the bytes stored at the front of
`p`, the error, and the file afterwards.  A zero-length read returns `0, nil`; a
successful read delivers at least one byte; a failed read delivers none. -/
def File.Read (f : File) (n : Nat) : List Byte × Option Error × File :=
  if n = 0 then ([], none, f)
  else
    match f.data with
    | [] => ([], some f.endErr, f)
    | _ :: _ =>
      let k := match f.short with
        | [] => n
        | c :: _ => min n (max c 1)
      (f.data.take k, none, { f with data := f.data.drop k, short := f.short.tail })

/-! ## `processFile` -/

/-- The variables of the read loop of `processFile`, with the list of the chunks
handed to `ScanBytes` so far as a ghost field. -/
structure LoopState where
  file : File
  buffer : List Byte
  hasher : List Byte
  symbolmap : SymbolSet
  chunks : List (List Byte)

/-- How the read loop ends: by `break` on a read error, by the early `return` on
a scan error, or by a run-time panic; `outOfFuel` is the model running out of
iterations. -/
inductive Exit where
  | broke
  | scanError (e : Error)
  | panic
  | outOfFuel
  deriving DecidableEq, Repr

/-- The value of `buffer[bytesRead-1]`; `none` when the index is out of range. -/
def lastRead (buffer : List Byte) (bytesRead : Nat) : Option Byte :=
  if bytesRead = 0 then none else buffer[bytesRead - 1]?

/-- The loop `for buffer[bytesRead-1] != 0 { n, err := file.Read(buffer[bytesRead :
bytesRead+1]); if err != nil { break }; bytesRead += n }`.  The slice expression
panics when `bytesRead+1` exceeds the capacity of `buffer`, which is its length. -/
def extendLoop : Nat → File → List Byte → Nat → Exit × File × List Byte × Nat
  | 0, file, buffer, bytesRead => (.outOfFuel, file, buffer, bytesRead)
  | fuel + 1, file, buffer, bytesRead =>
    match lastRead buffer bytesRead with
    | none => (.panic, file, buffer, bytesRead)
    | some c =>
      if c = 0 then (.broke, file, buffer, bytesRead)
      else if buffer.length < bytesRead + 1 then (.panic, file, buffer, bytesRead)
      else
        match file.Read 1 with
        | (_, some _, file1) => (.broke, file1, buffer, bytesRead)
        | (p, none, file1) =>
          extendLoop fuel file1
            (buffer.take bytesRead ++ p ++ buffer.drop (bytesRead + p.length))
            (bytesRead + p.length)

/-- The loop `for { bytesRead, err := file.Read(buffer); if err != nil { break };
...; hasher.Write(buffer[:bytesRead]); symbolmap, err = ScanBytes(buffer[:bytesRead],
symbolmap); if err != nil { return nil, "", err } }`. -/
def readLoop : Nat → LoopState → Exit × LoopState
  | 0, st => (.outOfFuel, st)
  | fuel + 1, st =>
    match st.file.Read st.buffer.length with
    | (_, some _, file1) => (.broke, { st with file := file1 })
    | (p, none, file1) =>
      let buffer1 := p ++ st.buffer.drop p.length
      match lastRead buffer1 p.length with
      | none => (.panic, st)
      | some c =>
        let ext :=
          if c ≠ 0 then extendLoop (file1.data.length + 1) file1 buffer1 p.length
          else (.broke, file1, buffer1, p.length)
        match ext with
        | (.broke, file2, buffer2, bytesRead) =>
          let chunk := buffer2.take bytesRead
          match ScanBytes chunk st.symbolmap with
          | (_, some e) =>
            (.scanError e, { st with file := file2, buffer := buffer2,
                                     hasher := st.hasher ++ chunk,
                                     chunks := st.chunks ++ [chunk] })
          | (symbolmap1, none) =>
            readLoop fuel { file := file2, buffer := buffer2, hasher := st.hasher ++ chunk,
                            symbolmap := symbolmap1, chunks := st.chunks ++ [chunk] }
        | (e, _, _, _) => (e, st)

/-- The state in which `processFile` enters its loop: a fresh hasher, an empty
map and `buffer := make([]byte, chunkSize)`. -/
def initState (chunkSize : Nat) (file : File) : LoopState :=
  { file := file, buffer := List.replicate chunkSize 0, hasher := [],
    symbolmap := ∅, chunks := [] }

/-- The read loop of `processFile` run from the start of the file. -/
def runLoop (chunkSize : Nat) (file : File) : Exit × LoopState :=
  readLoop (file.data.length + 1) (initState chunkSize file)

/-- The loop `for k := range symbolmap { symbols = append(symbols, k) }`: Go visits every
key of a map exactly once, in an order it does not specify; the keys are taken
here in lexicographic order. -/
def rangeKeys (symbolmap : SymbolSet) : List Symbol :=
  Quot.liftOn symbolmap.val (List.insertionSort (· ≤ ·)) fun a b h =>
    List.eq_of_perm_of_sorted
      (((List.perm_insertionSort (· ≤ ·) a).trans h).trans (List.perm_insertionSort (· ≤ ·) b).symm)
      (List.sorted_insertionSort (· ≤ ·) a) (List.sorted_insertionSort (· ≤ ·) b)

/-- What a call of `processFile` comes to: the three results it returns, or a
run-time panic. -/
inductive Outcome where
  | returned (symbols : List Symbol) (hash : String) (err : Option Error)
  | panicked
  | outOfFuel
  deriving DecidableEq

/-- The function `processFile` with the chunk size as a parameter; `opened` is the result of
`os.Open(binaryPath)`. -/
def processFile (chunkSize : Nat) (opened : Except Error File) : Outcome :=
  match opened with
  | .error e => .returned [] "" (some e)
  | .ok file =>
    match runLoop chunkSize file with
    | (.broke, st) => .returned (rangeKeys st.symbolmap) (sha256hex st.hasher) none
    | (.scanError e, _) => .returned [] "" (some e)
    | (.panic, _) => .panicked
    | (.outOfFuel, _) => .outOfFuel

/-- The constant `chunkSize = 100 * 1024 * 1024` of `processFile`. -/
def chunkSize : Nat := 100 * 1024 * 1024

/-! ## The replace-then-append step of `main` -/

/-- The record `BinaryFileSymbols`. -/
structure BinaryFileSymbols where
  Name : String
  Hash : String
  Symbols : List Symbol
  deriving DecidableEq

/-- The loop `for i, fileSymbols := range s { if fileSymbols.Hash == hash { s =
append(s[:i], s[i+1:]...) } }` over `s = symbolCollection.FileSymbols`.  The range
expression is evaluated once, so `i` runs over the original length and
`fileSymbols` is read from the backing array `arr`, which `append` rewrites in
place; `len` is the current length of the slice.  `s[i+1:]` panics (`none`) when
`i+1` exceeds the current length.  The first argument counts the iterations left. -/
def replaceLoop (hash : String) :
    Nat → Nat → List BinaryFileSymbols → Nat → Option (List BinaryFileSymbols × Nat)
  | 0, _, arr, len => some (arr, len)
  | todo + 1, i, arr, len =>
    match arr[i]? with
    | none => none
    | some fileSymbols =>
      if fileSymbols.Hash = hash then
        if i + 1 ≤ len then
          replaceLoop hash todo (i + 1)
            (arr.take i ++ (arr.take len).drop (i + 1) ++ arr.drop (len - 1)) (len - 1)
        else none
      else replaceLoop hash todo (i + 1) arr len

/-- The replace-then-append step of `main`: the loop above followed by
`symbolCollection.FileSymbols = append(symbolCollection.FileSymbols, r)`; `none`
is a run-time panic. -/
def addRecord (coll : List BinaryFileSymbols) (r : BinaryFileSymbols) :
    Option (List BinaryFileSymbols) :=
  (replaceLoop r.Hash coll.length 0 coll coll.length).map fun (arr, len) => arr.take len ++ [r]


/-! ## `bytes.Index` and `bytes.Split` -/

theorem HasPrefix_iff (s sep : List Byte) : HasPrefix s sep = true ↔ sep <+: s := by
  induction sep generalizing s with
  | nil => simp [HasPrefix]
  | cons d sep ih =>
    cases s with
    | nil => simp [HasPrefix]
    | cons c s =>
      simp only [HasPrefix, Bool.and_eq_true, beq_iff_eq, ih, List.cons_prefix_cons]
      constructor
      · rintro ⟨h1, h2⟩; exact ⟨h1.symm, h2⟩
      · rintro ⟨h1, h2⟩; exact ⟨h1.symm, h2⟩

theorem Index_eq_none_iff (s sep : List Byte) :
    Index s sep = none ↔ ∀ i, i ≤ s.length → ¬ sep <+: s.drop i := by
  induction s with
  | nil =>
    simp only [Index, HasPrefix_iff, List.length_nil, Nat.le_zero, List.drop_nil]
    constructor
    · intro h i _
      by_contra hc
      simp [hc] at h
    · intro h
      simp [h 0 rfl]
  | cons c s ih =>
    simp only [Index, HasPrefix_iff, List.length_cons]
    constructor
    · intro h i hi
      by_cases hp : sep <+: c :: s
      · simp [hp] at h
      · simp only [hp, if_false, Option.map_eq_none'] at h
        cases i with
        | zero => simpa using hp
        | succ i => simpa using ih.mp h i (by omega)
    · intro h
      have h0 : ¬ sep <+: c :: s := by simpa using h 0 (by omega)
      simp only [h0, if_false, Option.map_eq_none']
      exact ih.mpr fun i hi => by simpa using h (i + 1) (by omega)

theorem Index_eq_some_iff (s sep : List Byte) (m : Nat) :
    Index s sep = some m ↔
      m ≤ s.length ∧ sep <+: s.drop m ∧ ∀ i, i < m → ¬ sep <+: s.drop i := by
  induction s generalizing m with
  | nil =>
    simp only [Index, HasPrefix_iff, List.length_nil, Nat.le_zero, List.drop_nil]
    constructor
    · intro h
      by_cases hp : sep <+: []
      · simp only [hp, if_true, Option.some.injEq] at h
        subst h
        exact ⟨rfl, hp, fun i hi => absurd hi (Nat.not_lt_zero i)⟩
      · simp [hp] at h
    · rintro ⟨rfl, hp, -⟩
      simp [hp]
  | cons c s ih =>
    simp only [Index, HasPrefix_iff, List.length_cons]
    by_cases hp : sep <+: c :: s
    · simp only [hp, if_true, Option.some.injEq]
      constructor
      · rintro rfl
        exact ⟨by omega, by simpa using hp, fun i hi => absurd hi (Nat.not_lt_zero i)⟩
      · rintro ⟨-, -, h3⟩
        by_contra hne
        exact h3 0 (by omega) (by simpa using hp)
    · simp only [hp, if_false, Option.map_eq_some']
      constructor
      · rintro ⟨a, ha, rfl⟩
        obtain ⟨h1, h2, h3⟩ := (ih a).mp ha
        refine ⟨by omega, by simpa using h2, fun i hi => ?_⟩
        cases i with
        | zero => simpa using hp
        | succ i => simpa using h3 i (by omega)
      · rintro ⟨h1, h2, h3⟩
        cases m with
        | zero => exact absurd (by simpa using h2) hp
        | succ m =>
          exact ⟨m, (ih m).mpr ⟨by omega, by simpa using h2,
            fun i hi => by simpa using h3 (i + 1) (by omega)⟩, rfl⟩

theorem countLoop_le (sep : List Byte) (fuel : Nat) (s : List Byte) :
    countLoop sep fuel s ≤ fuel := by
  induction fuel generalizing s with
  | zero => simp [countLoop]
  | succ fuel ih =>
    simp only [countLoop]
    cases Index s sep with
    | none => simp
    | some i => simpa using ih _

theorem Index_nil_of_ne_nil {sep : List Byte} (hsep : sep ≠ []) : Index [] sep = none := by
  cases sep with
  | nil => exact absurd rfl hsep
  | cons d sep => simp [Index, HasPrefix]

theorem countLoop_fuel {sep : List Byte} (hsep : sep ≠ []) (f1 f2 : Nat) (s : List Byte)
    (h1 : s.length ≤ f1) (h2 : s.length ≤ f2) : countLoop sep f1 s = countLoop sep f2 s := by
  induction f1 generalizing f2 s with
  | zero =>
    have hs : s = [] := List.eq_nil_of_length_eq_zero (by omega)
    subst hs
    cases f2 with
    | zero => rfl
    | succ f2 => simp [countLoop, Index_nil_of_ne_nil hsep]
  | succ f1 ih =>
    cases f2 with
    | zero =>
      have hs : s = [] := List.eq_nil_of_length_eq_zero (by omega)
      subst hs
      simp [countLoop, Index_nil_of_ne_nil hsep]
    | succ f2 =>
      simp only [countLoop]
      cases hI : Index s sep with
      | none => rfl
      | some i =>
        have hl : 0 < sep.length := List.length_pos.mpr hsep
        simp only [Nat.add_right_cancel_iff]
        exact ih f2 _ (by simp only [List.length_drop]; omega)
          (by simp only [List.length_drop]; omega)

theorem Split_eq_genSplitLoop (s sep : List Byte) :
    Split s sep = genSplitLoop sep (Count s sep) s := by
  have h : Count s sep ≤ s.length := countLoop_le sep s.length s
  simp only [Split]
  congr 1
  omega

/-- No occurrence of the separator: the split is the input itself. -/
theorem Split_of_Index_none {s sep : List Byte} (h : Index s sep = none) :
    Split s sep = [s] := by
  rw [Split_eq_genSplitLoop]
  cases hc : Count s sep with
  | zero => rfl
  | succ k => simp [genSplitLoop, h]

/-- The first occurrence of the separator cuts off the first segment, and the
rest of the input is split in the same way. -/
theorem Split_of_Index_some {s sep : List Byte} (hsep : sep ≠ []) {m : Nat}
    (h : Index s sep = some m) :
    Split s sep = s.take m :: Split (s.drop (m + sep.length)) sep := by
  have hl : 0 < sep.length := List.length_pos.mpr hsep
  rw [Split_eq_genSplitLoop, Split_eq_genSplitLoop]
  cases hs : s.length with
  | zero =>
    have hs' : s = [] := List.eq_nil_of_length_eq_zero hs
    subst hs'
    rw [Index_nil_of_ne_nil hsep] at h
    exact absurd h (by simp)
  | succ f =>
    have hc : Count s sep = Count (s.drop (m + sep.length)) sep + 1 := by
      simp only [Count, hs, countLoop, h, Nat.add_right_cancel_iff]
      exact countLoop_fuel hsep _ _ _ (by simp only [List.length_drop]; omega) (Nat.le_refl _)
    rw [hc]
    simp [genSplitLoop, h]

/-! ## The scan of one segment -/

theorem firstZero_of_not_mem {b : List Byte} (h : (0 : Byte) ∉ b) : firstZero b = none := by
  induction b with
  | nil => rfl
  | cons c b ih =>
    have hc : c ≠ 0 := fun hc => h (by simp [hc])
    have hb : (0 : Byte) ∉ b := fun hb => h (List.mem_cons_of_mem _ hb)
    simp [firstZero, hc, ih hb]

theorem firstZero_append_zero {s : List Byte} (h : (0 : Byte) ∉ s) (y : List Byte) :
    firstZero (s ++ 0 :: y) = some s.length := by
  induction s with
  | nil => simp [firstZero]
  | cons c s ih =>
    have hc : c ≠ 0 := fun hc => h (by simp [hc])
    have hs : (0 : Byte) ∉ s := fun hs => h (List.mem_cons_of_mem _ hs)
    simp [firstZero, hc, ih hs]

theorem scanSegment_of_not_mem (S : SymbolSet) {b : List Byte} (h : (0 : Byte) ∉ b) :
    scanSegment S b = S := by
  simp [scanSegment, firstZero_of_not_mem h]

theorem scanSegment_append_zero (S : SymbolSet) {s : List Byte} (h : (0 : Byte) ∉ s)
    (y : List Byte) : scanSegment S (s ++ 0 :: y) = insert s S := by
  simp [scanSegment, firstZero_append_zero h]

theorem foldl_scanSegment_of_not_mem (S : SymbolSet) (segs : List (List Byte))
    (h : ∀ b ∈ segs, (0 : Byte) ∉ b) : segs.foldl scanSegment S = S := by
  induction segs generalizing S with
  | nil => rfl
  | cons b segs ih =>
    rw [List.foldl_cons, scanSegment_of_not_mem S (h b (List.mem_cons_self _ _))]
    exact ih S fun b hb => h b (List.mem_cons_of_mem _ hb)

theorem foldl_scanSegment_terminated (S : SymbolSet) (ss : List (List Byte))
    (h : ∀ s ∈ ss, (0 : Byte) ∉ s) :
    (ss.map (· ++ [0])).foldl scanSegment S = S ∪ ss.toFinset := by
  induction ss generalizing S with
  | nil => simp
  | cons s ss ih =>
    rw [List.map_cons, List.foldl_cons, scanSegment_append_zero S (h s (List.mem_cons_self _ _)),
      ih _ fun s hs => h s (List.mem_cons_of_mem _ hs)]
    ext x
    simp only [Finset.mem_union, Finset.mem_insert, List.toFinset_cons]
    tauto

/-! ## Occurrences of the separator around a zero byte -/

theorem not_prefix_drop_append_zero {s sep : List Byte} (hs : ¬ sep <:+: s)
    (h0 : (0 : Byte) ∉ sep) (Y : List Byte) (i : Nat) (hi : i ≤ s.length) :
    ¬ sep <+: (s ++ 0 :: Y).drop i := by
  rw [List.drop_append_of_le_length hi]
  intro hp
  by_cases hl : sep.length ≤ (s.drop i).length
  · have h1 : sep <+: s.drop i :=
      List.prefix_of_prefix_length_le hp (List.prefix_append _ _) hl
    exact hs (h1.isInfix.trans (List.drop_suffix i s).isInfix)
  · have h2 : s.drop i ++ [0] <+: s.drop i ++ 0 :: Y := by
      rw [List.prefix_append_right_inj]
      exact List.prefix_iff_eq_append.mpr rfl
    have h1 : s.drop i ++ [0] <+: sep :=
      List.prefix_of_prefix_length_le h2 hp (by simp only [List.length_append, List.length_singleton]; omega)
    exact h0 (h1.subset (by simp))

theorem Index_append_zero_sep {s sep : List Byte} (hs : ¬ sep <:+: s)
    (h0 : (0 : Byte) ∉ sep) (Z : List Byte) :
    Index (s ++ 0 :: (sep ++ Z)) sep = some (s.length + 1) := by
  rw [Index_eq_some_iff]
  refine ⟨by simp, ?_, fun i hi => not_prefix_drop_append_zero hs h0 _ i (by omega)⟩
  have : (s ++ 0 :: (sep ++ Z)).drop (s.length + 1) = sep ++ Z := by
    rw [List.drop_append_eq_append_drop]
    simp
  rw [this]
  exact List.prefix_append _ _

theorem Index_append_zero {s sep : List Byte} (hs : ¬ sep <:+: s)
    (h0 : (0 : Byte) ∉ sep) (hsep : sep ≠ []) : Index (s ++ [0]) sep = none := by
  rw [Index_eq_none_iff]
  intro i hi
  by_cases h : i ≤ s.length
  · exact not_prefix_drop_append_zero hs h0 [] i h
  · have : (s ++ [0]).drop i = [] := List.drop_eq_nil_of_le (by simp; simp at hi; omega)
    rw [this]
    intro hp
    exact hsep (List.prefix_nil.mp hp)

theorem Index_sep_append {sep : List Byte} (Z : List Byte) : Index (sep ++ Z) sep = some 0 := by
  rw [Index_eq_some_iff]
  exact ⟨Nat.zero_le _, by simp, fun i hi => absurd hi (Nat.not_lt_zero i)⟩

/-- The split of a sequence of marker-prefixed, zero-terminated strings, after
its first marker. -/
theorem Split_terminated {sep : List Byte} (hsep : sep ≠ []) (h0 : (0 : Byte) ∉ sep)
    (ss : List (List Byte)) (s : List Byte) (hs : ¬ sep <:+: s)
    (hss : ∀ x ∈ ss, ¬ sep <:+: x) :
    Split (s ++ 0 :: (ss.flatMap fun x => sep ++ x ++ [0])) sep
      = (s ++ [0]) :: ss.map (· ++ [0]) := by
  induction ss generalizing s with
  | nil => simpa using Split_of_Index_none (Index_append_zero hs h0 hsep)
  | cons x ss ih =>
    have hx := hss x (List.mem_cons_self _ _)
    have e : ((x :: ss).flatMap fun x => sep ++ x ++ [0])
        = sep ++ (x ++ 0 :: (ss.flatMap fun x => sep ++ x ++ [0])) := by
      simp [List.flatMap_cons]
    rw [e, Split_of_Index_some hsep (Index_append_zero_sep hs h0 _)]
    have e1 : (s ++ 0 :: (sep ++ (x ++ 0 :: (ss.flatMap fun x => sep ++ x ++ [0])))).take
        (s.length + 1) = s ++ [0] := by
      rw [List.take_append_eq_append_take]
      simp
    have e2 : (s ++ 0 :: (sep ++ (x ++ 0 :: (ss.flatMap fun x => sep ++ x ++ [0])))).drop
        (s.length + 1 + sep.length) = x ++ 0 :: (ss.flatMap fun x => sep ++ x ++ [0]) := by
      rw [List.drop_append_eq_append_drop]
      have : s.length + 1 + sep.length - s.length = sep.length + 1 := by omega
      have hle : s.length ≤ s.length + 1 + sep.length := by omega
      simp [this, hle]
    rw [e1, e2, ih x hx fun y hy => hss y (List.mem_cons_of_mem _ hy)]
    simp

theorem Split_marked {sep : List Byte} (hsep : sep ≠ []) (h0 : (0 : Byte) ∉ sep)
    (s : List Byte) (ss : List (List Byte)) (hss : ∀ x ∈ s :: ss, ¬ sep <:+: x) :
    Split ((s :: ss).flatMap fun x => sep ++ x ++ [0]) sep
      = [] :: (s :: ss).map (· ++ [0]) := by
  have e : ((s :: ss).flatMap fun x => sep ++ x ++ [0])
      = sep ++ (s ++ 0 :: (ss.flatMap fun x => sep ++ x ++ [0])) := by
    simp [List.flatMap_cons]
  rw [e, Split_of_Index_some hsep (Index_sep_append _)]
  simp only [List.take_zero, Nat.zero_add, List.drop_left', List.map_cons]
  rw [Split_terminated hsep h0 ss s (hss s (List.mem_cons_self _ _))
    fun y hy => hss y (List.mem_cons_of_mem _ hy)]

theorem prefixPattern_ne_nil : prefixPattern ≠ [] := by decide

theorem zero_not_mem_prefixPattern : (0 : Byte) ∉ prefixPattern := by decide

/-- C1: for every finite list of byte strings, none containing a zero byte or
the marker, scanning the chunk made of the marker-prefixed, zero-terminated
strings into an empty set returns exactly the set of those strings, with a nil
error. -/
theorem ScanBytes_marked_chunk (ss : List (List Byte))
    (h : ∀ s ∈ ss, (0 : Byte) ∉ s ∧ ¬ prefixPattern <:+: s) :
    ScanBytes (ss.flatMap fun s => prefixPattern ++ s ++ [0]) ∅ = (ss.toFinset, none) := by
  cases ss with
  | nil => rfl
  | cons s ss =>
    have hlen : ((s :: ss).flatMap fun s => prefixPattern ++ s ++ [0]).length ≠ 0 := by
      simp [List.flatMap_cons]
    simp only [ScanBytes, hlen, if_false]
    rw [Split_marked prefixPattern_ne_nil zero_not_mem_prefixPattern s ss fun x hx => (h x hx).2,
      List.foldl_cons, scanSegment_of_not_mem ∅ (List.not_mem_nil _),
      foldl_scanSegment_terminated ∅ (s :: ss) fun x hx => (h x hx).1]
    simp

/-- C1, at the strings "foo" and "bar": the chunk MARKER "foo\0" MARKER "bar\0"
yields the set of "foo" and "bar". -/
theorem ScanBytes_marked_chunk_witness :
    (∀ s ∈ [[102, 111, 111], [98, 97, 114]], (0 : Byte) ∉ s ∧ ¬ prefixPattern <:+: s) ∧
    ScanBytes (prefixPattern ++ [102, 111, 111, 0] ++ prefixPattern ++ [98, 97, 114, 0]) ∅
      = ({[102, 111, 111], [98, 97, 114]}, none) :=
  ⟨by decide, ScanBytes_marked_chunk [[102, 111, 111], [98, 97, 114]] (by decide)⟩

/-! ## Splitting around an appended marker -/

theorem Index_append_of_some {p sep : List Byte} {m : Nat} (h : Index p sep = some m)
    (q : List Byte) : Index (p ++ q) sep = some m := by
  rw [Index_eq_some_iff] at h ⊢
  obtain ⟨h1, h2, h3⟩ := h
  have hlen : sep.length ≤ (p.drop m).length := h2.length_le
  refine ⟨by simp only [List.length_append]; omega, ?_, fun i hi hp => ?_⟩
  · rw [List.drop_append_of_le_length h1]
    exact h2.trans (List.prefix_append _ _)
  · rw [List.drop_append_of_le_length (by omega)] at hp
    refine h3 i hi (List.prefix_of_prefix_length_le hp (List.prefix_append _ _) ?_)
    simp only [List.length_drop] at hlen ⊢
    omega

theorem Index_append_sep_of_none {p r : List Byte} {a : Byte} (ha : a ∉ r)
    (h : Index p (a :: r) = none) (t : List Byte) :
    Index (p ++ (a :: r ++ t)) (a :: r) = some p.length := by
  rw [Index_eq_none_iff] at h
  rw [Index_eq_some_iff]
  refine ⟨by simp, by simp, fun i hi hp => ?_⟩
  rw [List.drop_append_of_le_length (by omega)] at hp
  by_cases hl : (a :: r).length ≤ (p.drop i).length
  · exact h i (by omega) (List.prefix_of_prefix_length_le hp (List.prefix_append _ _) hl)
  · have hq : p.drop i <+: a :: r :=
      List.prefix_of_prefix_length_le (List.prefix_append _ _) hp (by omega)
    obtain ⟨c, hc⟩ := hq
    rw [← hc, List.append_assoc, List.prefix_append_right_inj] at hp
    have hqlen : 0 < (p.drop i).length := by simp only [List.length_drop]; omega
    cases hq' : p.drop i with
    | nil => rw [hq'] at hqlen; exact absurd hqlen (by simp)
    | cons y q =>
      rw [hq'] at hc hl
      cases c with
      | nil =>
        rw [List.append_nil] at hc
        rw [hc] at hl
        exact hl (Nat.le_refl _)
      | cons x c =>
        have hy : y = a := List.head_eq_of_cons_eq hc
        have hx : x = a := by
          rw [hq'] at hp
          rw [List.cons_append, List.cons_prefix_cons] at hp
          exact hp.1.trans hy
        have hr : r = q ++ x :: c := by
          simp only [List.cons_append] at hc
          exact (List.tail_eq_of_cons_eq hc).symm
        exact ha (by rw [hr, hx]; simp)

/-- Appending a marker and further bytes to a chunk appends the split of those
bytes to the split of the chunk: no occurrence of the marker straddles the
boundary, because the first byte of the marker does not recur in it. -/
theorem Split_append_sep {r : List Byte} {a : Byte} (ha : a ∉ r) (p t : List Byte) :
    Split (p ++ (a :: r ++ t)) (a :: r) = Split p (a :: r) ++ Split t (a :: r) := by
  have hsep : a :: r ≠ [] := List.cons_ne_nil _ _
  obtain ⟨n, hn⟩ : ∃ n, p.length = n := ⟨_, rfl⟩
  induction n using Nat.strong_induction_on generalizing p with
  | _ n ih =>
    subst hn
    cases hI : Index p (a :: r) with
    | none =>
      rw [Split_of_Index_none hI, Split_of_Index_some hsep (Index_append_sep_of_none ha hI t)]
      have e1 : (p ++ (a :: r ++ t)).take p.length = p := by simp
      have e2 : (p ++ (a :: r ++ t)).drop (p.length + (a :: r).length) = t := by
        rw [← List.drop_drop, List.drop_left', List.drop_left' rfl]
        rfl
      rw [e1, e2]
      rfl
    | some m =>
      have hm := (Index_eq_some_iff p (a :: r) m).mp hI
      have hlen : (a :: r).length ≤ (p.drop m).length := hm.2.1.length_le
      have hle : m + (a :: r).length ≤ p.length := by
        simp only [List.length_drop] at hlen
        have := hm.1
        have hpos : 0 < (a :: r).length := by simp
        omega
      rw [Split_of_Index_some hsep hI, Split_of_Index_some hsep (Index_append_of_some hI _),
        List.take_append_of_le_length (by omega), List.drop_append_of_le_length hle,
        ih _ (by simp only [List.length_drop, List.length_cons] at hle ⊢; omega) _ rfl]
      rfl

theorem genSplitLoop_subset (sep : List Byte) (k : Nat) (s : List Byte) :
    ∀ seg ∈ genSplitLoop sep k s, seg ⊆ s := by
  induction k generalizing s with
  | zero => simp [genSplitLoop]
  | succ k ih =>
    simp only [genSplitLoop]
    cases Index s sep with
    | none => simp
    | some m =>
      intro seg hseg
      rcases List.mem_cons.mp hseg with rfl | hseg
      · exact List.take_subset _ _
      · exact (ih _ seg hseg).trans (List.drop_subset _ _)

theorem Split_subset (s sep : List Byte) : ∀ seg ∈ Split s sep, seg ⊆ s :=
  genSplitLoop_subset sep _ s

theorem prefixPattern_eq : prefixPattern = 79 :: [108, 80, 114, 69, 102, 73, 120] := rfl

/-- C6: an unterminated trailing segment contributes no symbol: appending the
marker and bytes without a zero byte to a chunk does not change what the scan
returns. -/
theorem ScanBytes_unterminated_tail (p t : List Byte) (S : SymbolSet)
    (ht : (0 : Byte) ∉ t) :
    ScanBytes (p ++ prefixPattern ++ t) S = ScanBytes p S := by
  have hlen : (p ++ prefixPattern ++ t).length ≠ 0 := by simp [prefixPattern]
  have hsplit : Split (p ++ prefixPattern ++ t) prefixPattern
      = Split p prefixPattern ++ Split t prefixPattern := by
    rw [List.append_assoc, prefixPattern_eq]
    exact Split_append_sep (by decide) p t
  have htail : ∀ S : SymbolSet, (Split t prefixPattern).foldl scanSegment S = S := fun S =>
    foldl_scanSegment_of_not_mem S _ fun b hb h0 => ht (Split_subset t prefixPattern b hb h0)
  simp only [ScanBytes, hlen, if_false, hsplit, List.foldl_append, htail]
  by_cases hp : p.length = 0
  · have : p = [] := List.eq_nil_of_length_eq_zero hp
    subst this
    rfl
  · simp [hp]

/-- C6, at the empty chunk and the bytes "trunc": scanning MARKER "trunc" leaves
the empty set empty, so "trunc" is not in it. -/
theorem ScanBytes_unterminated_tail_witness :
    (0 : Byte) ∉ [116, 114, 117, 110, 99] ∧
    ScanBytes ([] ++ prefixPattern ++ [116, 114, 117, 110, 99]) ∅ = ScanBytes [] ∅ ∧
    [116, 114, 117, 110, 99] ∉ (ScanBytes ([] ++ prefixPattern ++ [116, 114, 117, 110, 99]) ∅).1 :=
  ⟨by decide, ScanBytes_unterminated_tail [] [116, 114, 117, 110, 99] ∅ (by decide), by decide⟩

/-! ## The replace-then-append step -/

theorem getElem?_append_cons_length (pre : List BinaryFileSymbols) (x : BinaryFileSymbols)
    (rest : List BinaryFileSymbols) : (pre ++ x :: rest)[pre.length]? = some x := by
  rw [List.getElem?_append_right (Nat.le_refl _)]
  simp

theorem replaceLoop_skip (hash : String) (mid : List BinaryFileSymbols)
    (hmid : ∀ x ∈ mid, x.Hash ≠ hash) (pre post : List BinaryFileSymbols) (todo len : Nat) :
    replaceLoop hash (mid.length + todo) pre.length (pre ++ mid ++ post) len
      = replaceLoop hash todo (pre.length + mid.length) (pre ++ mid ++ post) len := by
  induction mid generalizing pre with
  | nil => simp
  | cons x mid ih =>
    have hx : x.Hash ≠ hash := hmid x (List.mem_cons_self _ _)
    have e : pre ++ x :: mid ++ post = (pre ++ [x]) ++ mid ++ post := by simp
    have hget : (pre ++ x :: mid ++ post)[pre.length]? = some x := by
      rw [List.append_assoc]
      exact getElem?_append_cons_length pre x _
    have hl : (x :: mid).length + todo = (mid.length + todo) + 1 := by
      simp only [List.length_cons]; omega
    rw [hl, replaceLoop, hget]
    simp only [hx, if_false]
    rw [e]
    have := ih (fun y hy => hmid y (List.mem_cons_of_mem _ hy)) (pre ++ [x])
    simp only [List.length_append, List.length_singleton] at this
    rw [this]
    simp only [List.length_cons]
    congr 1
    omega

theorem replaceLoop_of_absent (hash : String) (coll : List BinaryFileSymbols)
    (h : ∀ x ∈ coll, x.Hash ≠ hash) (len : Nat) :
    replaceLoop hash coll.length 0 coll len = some (coll, len) := by
  have := replaceLoop_skip hash coll h [] [] 0 len
  simpa [replaceLoop] using this

theorem replaceLoop_of_unique (hash : String) (pre post : List BinaryFileSymbols)
    (d : BinaryFileSymbols) (hd : d.Hash = hash) (hpre : ∀ x ∈ pre, x.Hash ≠ hash)
    (hpost : ∀ x ∈ post, x.Hash ≠ hash) :
    ∃ arr, replaceLoop hash (pre.length + (post.length + 1)) 0 (pre ++ d :: post)
        (pre.length + (post.length + 1)) = some (arr, pre.length + post.length)
      ∧ arr.take (pre.length + post.length) = pre ++ post := by
  have h1 := replaceLoop_skip hash pre hpre [] (d :: post) (post.length + 1)
    (pre.length + (post.length + 1))
  simp only [List.nil_append, List.length_nil, Nat.zero_add] at h1
  have hl : (pre ++ d :: post).length = pre.length + (post.length + 1) := by simp
  have hget : (pre ++ d :: post)[pre.length]? = some d := getElem?_append_cons_length pre d post
  rw [h1, replaceLoop, hget]
  have hle : pre.length + 1 ≤ pre.length + (post.length + 1) := by omega
  simp only [hd, if_true, hle]
  have e1 : (pre ++ d :: post).take pre.length = pre := by simp
  have e2 : ((pre ++ d :: post).take (pre.length + (post.length + 1))).drop (pre.length + 1)
      = post := by
    rw [← hl, List.take_length, List.drop_append_eq_append_drop]
    simp
  have e3 : pre.length + (post.length + 1) - 1 = pre.length + post.length := by omega
  rw [e1, e2, e3]
  rcases List.eq_nil_or_concat post with rfl | ⟨post1, z, rfl⟩
  · exact ⟨pre ++ [] ++ (pre ++ [d]).drop (pre.length + ([] : List BinaryFileSymbols).length),
      rfl, by simp⟩
  · simp only [List.concat_eq_append] at *
    have hz : z.Hash ≠ hash := hpost z (by simp)
    have e4 : (pre ++ d :: (post1 ++ [z])).drop (pre.length + (post1 ++ [z]).length) = [z] := by
      rw [List.drop_append_eq_append_drop]
      simp
    rw [e4]
    refine ⟨pre ++ (post1 ++ [z]) ++ [z], ?_, ?_⟩
    · have hall : ∀ x ∈ post1 ++ [z], x.Hash ≠ hash := hpost
      obtain ⟨y, post2, hy⟩ : ∃ y post2, post1 ++ [z] = y :: post2 := by
        cases post1 with
        | nil => exact ⟨z, [], rfl⟩
        | cons y post1 => exact ⟨y, post1 ++ [z], rfl⟩
      rw [hy] at hall ⊢
      have h2 := replaceLoop_skip hash (post2 ++ [z]) (fun x hx => by
        rcases List.mem_append.mp hx with hx | hx
        · exact hall x (List.mem_cons_of_mem _ hx)
        · rw [List.mem_singleton.mp hx]; exact hz) (pre ++ [y]) [] 0
        (pre.length + (y :: post2).length)
      simp only [List.length_append, List.length_singleton, List.length_cons, Nat.add_zero,
        List.append_nil, replaceLoop] at h2
      simp only [List.length_cons]
      have e5 : pre ++ y :: post2 ++ [z] = pre ++ [y] ++ (post2 ++ [z]) := by simp
      rw [e5]
      exact h2
    · exact List.take_left' (by simp)

theorem filter_hash_of_absent (hash : String) (l : List BinaryFileSymbols)
    (h : ∀ x ∈ l, x.Hash ≠ hash) : l.filter (fun x => !decide (x.Hash = hash)) = l :=
  List.filter_eq_self.mpr fun x hx => by simpa using h x hx

/-- What the replace-then-append step does to a collection with at most one
record per digest: the record with the new digest goes, the others stay in
order, the new record comes last. -/
theorem addRecord_eq_of_nodup (coll : List BinaryFileSymbols) (r : BinaryFileSymbols)
    (h : (coll.map (·.Hash)).Nodup) :
    addRecord coll r = some (coll.filter (fun x => decide (x.Hash ≠ r.Hash)) ++ [r]) := by
  by_cases hex : ∃ d ∈ coll, d.Hash = r.Hash
  · obtain ⟨d, hd, hdh⟩ := hex
    obtain ⟨pre, post, rfl⟩ := List.append_of_mem hd
    have hnd : (pre.map (·.Hash) ++ d.Hash :: post.map (·.Hash)).Nodup := by simpa using h
    have hpre : ∀ x ∈ pre, x.Hash ≠ r.Hash := fun x hx he => by
      have := (List.nodup_append.mp hnd).2.2
      exact this (List.mem_map_of_mem _ hx) (by rw [he, hdh]; simp)
    have hpost : ∀ x ∈ post, x.Hash ≠ r.Hash := fun x hx he => by
      have := (List.nodup_cons.mp (List.nodup_append.mp hnd).2.1).1
      exact this (by rw [hdh, ← he]; exact List.mem_map_of_mem _ hx)
    obtain ⟨arr, harr, htake⟩ := replaceLoop_of_unique r.Hash pre post d hdh hpre hpost
    have hl : (pre ++ d :: post).length = pre.length + (post.length + 1) := by simp
    simp only [addRecord, hl, harr, Option.map_some', htake]
    simp [List.filter_append, List.filter_cons, hdh, filter_hash_of_absent _ _ hpre,
      filter_hash_of_absent _ _ hpost]
  · have habs : ∀ x ∈ coll, x.Hash ≠ r.Hash := fun x hx he => hex ⟨x, hx, he⟩
    simp [addRecord, replaceLoop_of_absent r.Hash coll habs, filter_hash_of_absent _ _ habs]

/-- C9: on a collection with at most one record per digest, the
replace-then-append step keeps the records with another digest, in order, and
puts the new record last; the result again has at most one record per digest,
and adding a second record with the same digest (the same file scanned again)
leaves exactly one record for that digest. -/
theorem addRecord_preserves_unique (coll : List BinaryFileSymbols) (r : BinaryFileSymbols)
    (h : (coll.map (·.Hash)).Nodup) :
    addRecord coll r = some (coll.filter (fun x => x.Hash ≠ r.Hash) ++ [r]) ∧
    ((coll.filter (fun x => x.Hash ≠ r.Hash) ++ [r]).map (·.Hash)).Nodup ∧
    ∀ r2 : BinaryFileSymbols, r2.Hash = r.Hash →
      (addRecord coll r).bind (fun c => addRecord c r2)
          = some (coll.filter (fun x => x.Hash ≠ r.Hash) ++ [r2]) ∧
      (coll.filter (fun x => x.Hash ≠ r.Hash) ++ [r2]).countP (fun x => x.Hash = r.Hash) = 1 := by
  have h1 := addRecord_eq_of_nodup coll r h
  have hsub : ((coll.filter (fun x => x.Hash ≠ r.Hash)).map (·.Hash)).Nodup :=
    h.sublist ((List.filter_sublist _).map _)
  have hnot : ∀ x ∈ coll.filter (fun x => x.Hash ≠ r.Hash), x.Hash ≠ r.Hash := fun x hx => by
    simpa using (List.mem_filter.mp hx).2
  have h2 : ((coll.filter (fun x => x.Hash ≠ r.Hash) ++ [r]).map (·.Hash)).Nodup := by
    rw [List.map_append, List.nodup_append]
    refine ⟨hsub, by simp, ?_⟩
    intro a ha hb
    obtain ⟨x, hx, rfl⟩ := List.mem_map.mp ha
    simp only [List.map_cons, List.map_nil, List.mem_singleton] at hb
    exact hnot x hx hb
  refine ⟨h1, h2, fun r2 hr2 => ⟨?_, ?_⟩⟩
  · rw [h1, Option.some_bind, addRecord_eq_of_nodup _ r2 h2, hr2]
    congr 2
    rw [List.filter_append, List.filter_filter]
    simp
  · rw [List.countP_append, List.countP_eq_zero.mpr (fun x hx => by simpa using hnot x hx)]
    simp [hr2]

/-- C9, at a collection of two records and a new record that has the digest of
the first. -/
theorem addRecord_preserves_unique_witness :
    ([(⟨"a", "h1", []⟩ : BinaryFileSymbols), ⟨"b", "h2", []⟩].map (·.Hash)).Nodup ∧
    addRecord [⟨"a", "h1", []⟩, ⟨"b", "h2", []⟩] ⟨"c", "h1", [[102]]⟩
      = some [⟨"b", "h2", []⟩, ⟨"c", "h1", [[102]]⟩] :=
  ⟨by decide,
   (addRecord_preserves_unique [⟨"a", "h1", []⟩, ⟨"b", "h2", []⟩] ⟨"c", "h1", [[102]]⟩
      (by decide)).1⟩

/-- C8: the collection d, d, a (two records with digest "d") and a new record
with digest "d": the step keeps the second old record, so two records have
digest "d"; on the collection d, d the step panics. -/
theorem addRecord_duplicate_digest :
    addRecord [⟨"one", "d", []⟩, ⟨"two", "d", []⟩, ⟨"three", "a", []⟩] ⟨"new", "d", []⟩
      = some [⟨"two", "d", []⟩, ⟨"three", "a", []⟩, ⟨"new", "d", []⟩] ∧
    addRecord [⟨"one", "d", []⟩, ⟨"two", "d", []⟩] ⟨"new", "d", []⟩ = none := by
  decide

/-! ## `ScanBytes` on the bytes before the first marker -/

/-- C5: the chunk "abc\0" holds no marker, yet scanning it into the empty set
adds "abc"; in "a\0" MARKER "b\0" the bytes before the first marker give the
symbol "a". -/
theorem ScanBytes_first_segment :
    ScanBytes [97, 98, 99, 0] ∅ = ({[97, 98, 99]}, none) ∧
    Index [97, 98, 99, 0] prefixPattern = none ∧
    ScanBytes ([97, 0] ++ prefixPattern ++ [98, 0]) ∅ = ({[97], [98]}, none) := by
  decide

/-! ## `processFile` -/

theorem runLoop_no_data (cs : Nat) (hcs : 0 < cs) (e : Error) (short : List Nat) :
    runLoop cs ⟨[], e, short⟩ = (.broke, initState cs ⟨[], e, short⟩) := by
  have hne : cs ≠ 0 := Nat.pos_iff_ne_zero.mp hcs
  simp [runLoop, readLoop, initState, File.Read, hne]

theorem sha256hex_nil :
    sha256hex [] = "e3b0c44298fc1c149afbf4c8996fb92427ae41e4649b934ca495991b7852b855" := by
  decide

/-- The model of SHA-256 on the test vector "abc" of FIPS 180-4. -/
theorem sha256hex_abc :
    sha256hex [97, 98, 99]
      = "ba7816bf8f01cfea414140de5dae2223b00361a396177a9cb410ff61f20015ad" := by
  decide

theorem processFile_no_data (cs : Nat) (hcs : 0 < cs) (e : Error) (short : List Nat) :
    processFile cs (.ok ⟨[], e, short⟩)
      = .returned [] "e3b0c44298fc1c149afbf4c8996fb92427ae41e4649b934ca495991b7852b855" none := by
  simp only [processFile, runLoop_no_data cs hcs, initState, sha256hex_nil]
  rfl

/-- C10: for an empty input stream `processFile` returns a nil error, an empty
symbol list and the SHA-256 digest of the empty byte sequence; the hasher
receives no bytes and `ScanBytes` is given no chunk. -/
theorem processFile_empty_stream (cs : Nat) (hcs : 0 < cs) (short : List Nat) :
    processFile cs (.ok ⟨[], .eof, short⟩)
      = .returned [] "e3b0c44298fc1c149afbf4c8996fb92427ae41e4649b934ca495991b7852b855" none ∧
    (runLoop cs ⟨[], .eof, short⟩).2.hasher = [] ∧
    (runLoop cs ⟨[], .eof, short⟩).2.chunks = [] := by
  refine ⟨processFile_no_data cs hcs _ _, ?_, ?_⟩ <;> rw [runLoop_no_data cs hcs] <;> rfl

/-- C10, at the chunk size of the program, 100 MiB. -/
theorem processFile_empty_stream_witness :
    0 < chunkSize ∧
    processFile chunkSize (.ok ⟨[], .eof, []⟩)
      = .returned [] "e3b0c44298fc1c149afbf4c8996fb92427ae41e4649b934ca495991b7852b855" none :=
  ⟨by decide, (processFile_empty_stream chunkSize (by decide) []).1⟩

/-- C7: a stream whose first read fails with an error that is not end-of-stream
(a directory, say) is reported, at the chunk size of the program, as a
successful scan of no bytes with a nil error; a stream that fails after three
bytes is reported as a successful scan of those three bytes. -/
theorem processFile_read_error_returns_nil :
    processFile chunkSize (.ok ⟨[], .io "read: is a directory", []⟩)
      = .returned [] "e3b0c44298fc1c149afbf4c8996fb92427ae41e4649b934ca495991b7852b855" none ∧
    processFile 4 (.ok ⟨[79, 107, 0], .io "read: input/output error", []⟩)
      = .returned [[79, 107]] (sha256hex [79, 107, 0]) none :=
  ⟨processFile_no_data chunkSize (by decide) _ _, by decide⟩

/-- C2: the stream MARKER "foo\0" "junk\0" gives the symbols "foo" and "junk"
with chunk size 12 and only "foo" with chunk size 17; the stream 1 1 1 makes the
loop panic with chunk size 2 and gives a result with chunk size 4. -/
theorem processFile_chunk_size_dependent :
    (runLoop 12 ⟨prefixPattern ++ [102, 111, 111, 0] ++ [106, 117, 110, 107, 0], .eof, []⟩).2.symbolmap
      = {[102, 111, 111], [106, 117, 110, 107]} ∧
    (runLoop 17 ⟨prefixPattern ++ [102, 111, 111, 0] ++ [106, 117, 110, 107, 0], .eof, []⟩).2.symbolmap
      = {[102, 111, 111]} ∧
    (runLoop 12 ⟨prefixPattern ++ [102, 111, 111, 0] ++ [106, 117, 110, 107, 0], .eof, []⟩).1 = .broke ∧
    (runLoop 17 ⟨prefixPattern ++ [102, 111, 111, 0] ++ [106, 117, 110, 107, 0], .eof, []⟩).1 = .broke ∧
    (ScanBytes (prefixPattern ++ [102, 111, 111, 0] ++ [106, 117, 110, 107, 0]) ∅).1
      = {[102, 111, 111]} ∧
    (runLoop 2 ⟨[1, 1, 1], .eof, []⟩).1 = .panic ∧
    (runLoop 4 ⟨[1, 1, 1], .eof, []⟩).1 = .broke := by
  decide

/-- C3: with chunk size 4 the stream "ABCDE\0" makes `processFile` panic, so no
digest is returned; with chunk size 8 the digest of the six bytes is returned. -/
theorem processFile_no_digest :
    processFile 4 (.ok ⟨[65, 66, 67, 68, 69, 0], .eof, []⟩) = .panicked ∧
    processFile 8 (.ok ⟨[65, 66, 67, 68, 69, 0], .eof, []⟩)
      = .returned [[65, 66, 67, 68, 69]] (sha256hex [65, 66, 67, 68, 69, 0]) none := by
  decide

/-- C4: when the first read fills the buffer and ends on a non-zero byte, the
extension loop panics on its slice expression before it reads a byte: no byte
is appended and no chunk reaches `ScanBytes`. -/
theorem extendLoop_full_buffer_panics :
    extendLoop 3 ⟨[67, 0], .eof, []⟩ [65, 66] 2 = (.panic, ⟨[67, 0], .eof, []⟩, [65, 66], 2) ∧
    (runLoop 2 ⟨[65, 66, 67, 0], .eof, []⟩).1 = .panic ∧
    (runLoop 2 ⟨[65, 66, 67, 0], .eof, []⟩).2.chunks = [] := by
  decide

/-! ## The read loop always ends -/

theorem Read_cases (f : File) (n : Nat) (hn : n ≠ 0) :
    (f.data = [] ∧ f.Read n = ([], some f.endErr, f)) ∨
    (∃ p f1, f.Read n = (p, none, f1) ∧ p ≠ [] ∧ p.length ≤ n ∧ f.data = p ++ f1.data ∧
      f1.endErr = f.endErr) := by
  cases hd : f.data with
  | nil => left; simp [File.Read, hn, hd]
  | cons c rest =>
    right
    simp only [File.Read, hn, if_false, hd]
    refine ⟨_, _, rfl, ?_, ?_, ?_, rfl⟩
    · cases f.short with
      | nil => cases n with
        | zero => exact absurd rfl hn
        | succ n => simp
      | cons k _ =>
        have : 0 < min n (max k 1) := by omega
        obtain ⟨m, hm⟩ := Nat.exists_eq_succ_of_ne_zero (Nat.pos_iff_ne_zero.mp this)
        simp [hm]
    · cases f.short with
      | nil => simp
      | cons k _ => simp only [List.length_take]; omega
    · simp

theorem extendLoop_terminates (fuel : Nat) (file : File) (buffer : List Byte) (bytesRead : Nat)
    (h : file.data.length < fuel) :
    (extendLoop fuel file buffer bytesRead).1 ≠ .outOfFuel ∧
    (extendLoop fuel file buffer bytesRead).2.1.data.length ≤ file.data.length := by
  induction fuel generalizing file buffer bytesRead with
  | zero => exact absurd h (Nat.not_lt_zero _)
  | succ fuel ih =>
    rw [extendLoop]
    cases lastRead buffer bytesRead with
    | none => simp
    | some c =>
      by_cases hc : c = 0
      · simp [hc]
      · by_cases hb : buffer.length < bytesRead + 1
        · simp [hc, hb]
        · simp only [hc, hb, if_false]
          rcases Read_cases file 1 (by omega) with ⟨_, hr⟩ | ⟨p, f1, hr, hp, _, hdata, _⟩
          · simp [hr]
          · simp only [hr]
            have hlen : f1.data.length < file.data.length := by
              have : 0 < p.length := List.length_pos.mpr hp
              rw [hdata, List.length_append]
              omega
            have := ih f1 (buffer.take bytesRead ++ p ++ buffer.drop (bytesRead + p.length))
              (bytesRead + p.length) (by omega)
            exact ⟨this.1, by omega⟩

theorem ScanBytes_eq (data : List Byte) (symbols : SymbolSet) :
    ScanBytes data symbols = ((ScanBytes data symbols).1, none) := by
  simp only [ScanBytes]
  split <;> rfl

theorem readLoop_terminates (fuel : Nat) (st : LoopState) (h : st.file.data.length < fuel) :
    (readLoop fuel st).1 ≠ .outOfFuel := by
  induction fuel generalizing st with
  | zero => exact absurd h (Nat.not_lt_zero _)
  | succ fuel ih =>
    rw [readLoop]
    by_cases hn : st.buffer.length = 0
    · have hr : st.file.Read st.buffer.length = ([], none, st.file) := by simp [File.Read, hn]
      simp [hr, lastRead]
    · rcases Read_cases st.file _ hn with ⟨_, hr⟩ | ⟨p, f1, hr, hp, _, hdata, _⟩
      · simp [hr]
      · simp only [hr]
        have hlen : f1.data.length < st.file.data.length := by
          have : 0 < p.length := List.length_pos.mpr hp
          rw [hdata, List.length_append]
          omega
        cases lastRead (p ++ st.buffer.drop p.length) p.length with
        | none => simp
        | some c =>
          simp only
          have hext := extendLoop_terminates (f1.data.length + 1) f1
            (p ++ st.buffer.drop p.length) p.length (Nat.lt_succ_self _)
          by_cases hc : c = 0
          · simp only [hc, ne_eq, not_true_eq_false, if_false]
            rw [ScanBytes_eq]
            exact ih _ (by simp only; omega)
          · simp only [hc, ne_eq, not_false_eq_true, if_true]
            generalize extendLoop (f1.data.length + 1) f1 (p ++ st.buffer.drop p.length) p.length
              = ext at hext
            obtain ⟨e, f2, b2, n2⟩ := ext
            cases e with
            | broke =>
              simp only
              rw [ScanBytes_eq]
              exact ih _ (by simp only at hext ⊢; omega)
            | scanError e => simp
            | panic => simp
            | outOfFuel => exact absurd rfl hext.1

/-- The model of the read loop never runs out of iterations: from the start of
any file the loop ends by `break`, by the early return or by a panic. -/
theorem runLoop_terminates (cs : Nat) (file : File) : (runLoop cs file).1 ≠ .outOfFuel :=
  readLoop_terminates _ _ (Nat.lt_succ_self _)

theorem processFile_ne_outOfFuel (cs : Nat) (opened : Except Error File) :
    processFile cs opened ≠ .outOfFuel := by
  cases opened with
  | error e => simp [processFile]
  | ok file =>
    have h := runLoop_terminates cs file
    simp only [processFile]
    generalize runLoop cs file = res at h
    obtain ⟨e, st⟩ := res
    cases e <;> simp_all

/-! ## What the hasher has received when the loop ends -/

theorem extendLoop_bytes (fuel : Nat) (file : File) (buffer : List Byte) (bytesRead : Nat)
    (hb : bytesRead ≤ buffer.length) :
    ((extendLoop fuel file buffer bytesRead).2.2.1.take
        (extendLoop fuel file buffer bytesRead).2.2.2)
      ++ (extendLoop fuel file buffer bytesRead).2.1.data
      = buffer.take bytesRead ++ file.data := by
  induction fuel generalizing file buffer bytesRead with
  | zero => rfl
  | succ fuel ih =>
    rw [extendLoop]
    cases lastRead buffer bytesRead with
    | none => rfl
    | some c =>
      by_cases hc : c = 0
      · simp [hc]
      · by_cases hlt : buffer.length < bytesRead + 1
        · simp [hc, hlt]
        · simp only [hc, hlt, if_false]
          rcases Read_cases file 1 (by omega) with ⟨_, hr⟩ | ⟨p, f1, hr, hp, hp1, hdata, _⟩
          · simp [hr]
          · simp only [hr]
            rw [ih f1 _ _ (by simp only [List.length_append, List.length_take, List.length_drop]; omega)]
            rw [hdata, List.append_assoc (buffer.take bytesRead), List.take_append_eq_append_take]
            have h1 : (buffer.take bytesRead).length = bytesRead := by
              simp only [List.length_take]; omega
            simp [h1]

theorem extendLoop_ne_scanError (fuel : Nat) (file : File) (buffer : List Byte)
    (bytesRead : Nat) (e : Error) : (extendLoop fuel file buffer bytesRead).1 ≠ .scanError e := by
  induction fuel generalizing file buffer bytesRead with
  | zero => simp [extendLoop]
  | succ fuel ih =>
    rw [extendLoop]
    cases lastRead buffer bytesRead with
    | none => simp
    | some c =>
      by_cases hc : c = 0
      · simp [hc]
      · by_cases hlt : buffer.length < bytesRead + 1
        · simp [hc, hlt]
        · simp only [hc, hlt, if_false]
          rcases Read_cases file 1 (by omega) with ⟨_, hr⟩ | ⟨p, f1, hr, -⟩
          · simp [hr]
          · simp only [hr]
            exact ih _ _ _

theorem readLoop_hasher (fuel : Nat) (st : LoopState) :
    (readLoop fuel st).2.hasher ++ (readLoop fuel st).2.file.data = st.hasher ++ st.file.data ∧
    ((readLoop fuel st).1 = .broke → (readLoop fuel st).2.file.data = []) ∧
    ∀ e, (readLoop fuel st).1 ≠ .scanError e := by
  induction fuel generalizing st with
  | zero => simp [readLoop]
  | succ fuel ih =>
    rw [readLoop]
    by_cases hn : st.buffer.length = 0
    · have hr : st.file.Read st.buffer.length = ([], none, st.file) := by simp [File.Read, hn]
      simp [hr, lastRead]
    · rcases Read_cases st.file _ hn with ⟨hd, hr⟩ | ⟨p, f1, hr, hp, hpl, hdata, _⟩
      · simp [hr, hd]
      · simp only [hr]
        have hbuf : p.length ≤ (p ++ st.buffer.drop p.length).length := by simp
        have htake : (p ++ st.buffer.drop p.length).take p.length = p := by simp
        cases lastRead (p ++ st.buffer.drop p.length) p.length with
        | none => simp
        | some c =>
          simp only
          by_cases hc : c = 0
          · simp only [hc, ne_eq, not_true_eq_false, if_false]
            rw [ScanBytes_eq]
            simp only
            refine ⟨?_, (ih _).2⟩
            rw [(ih _).1]
            simp only
            rw [htake, hdata, List.append_assoc]
          · simp only [hc, ne_eq, not_false_eq_true, if_true]
            have hext := extendLoop_bytes (f1.data.length + 1) f1
              (p ++ st.buffer.drop p.length) p.length hbuf
            have hexit := extendLoop_ne_scanError (f1.data.length + 1) f1
              (p ++ st.buffer.drop p.length) p.length
            generalize extendLoop (f1.data.length + 1) f1 (p ++ st.buffer.drop p.length) p.length
              = ext at hext hexit
            obtain ⟨e, f2, b2, n2⟩ := ext
            simp only at hext hexit
            cases e with
            | broke =>
              simp only
              rw [ScanBytes_eq]
              simp only
              refine ⟨?_, (ih _).2⟩
              rw [(ih _).1]
              simp only
              rw [List.append_assoc, hext, htake, hdata]
            | scanError e => exact absurd rfl (hexit e)
            | panic => simp
            | outOfFuel => simp

/-- Whenever `processFile` returns after a successful open, the error is nil and
the digest is that of all the bytes of the stream. -/
theorem processFile_returned (cs : Nat) (file : File) (symbols : List Symbol) (hash : String)
    (err : Option Error) (h : processFile cs (.ok file) = .returned symbols hash err) :
    err = none ∧ hash = sha256hex file.data := by
  have hh := readLoop_hasher (file.data.length + 1) (initState cs file)
  simp only [processFile, runLoop] at h
  generalize readLoop (file.data.length + 1) (initState cs file) = res at h hh
  obtain ⟨e, st⟩ := res
  cases e with
  | broke =>
    simp only [Outcome.returned.injEq] at h
    have h1 := hh.1
    have h2 := hh.2.1 rfl
    simp only [initState, List.nil_append] at h1 h2
    rw [h2, List.append_nil] at h1
    exact ⟨h.2.2.symm, by rw [← h.2.1, h1]⟩
  | scanError e => exact absurd rfl (hh.2.2 e)
  | panic => simp at h
  | outOfFuel => simp at h

/-- A first read that fills the buffer and ends on a non-zero byte makes the loop
panic: the extension loop slices the buffer beyond its capacity. -/
theorem runLoop_full_read_panics (cs : Nat) (data : List Byte) (e : Error) (c : Byte)
    (hcs : 0 < cs) (hc : data[cs - 1]? = some c) (hne : c ≠ 0) :
    (runLoop cs ⟨data, e, []⟩).1 = .panic := by
  have hlt : cs - 1 < data.length := by
    by_contra h
    rw [List.getElem?_eq_none (by omega)] at hc
    exact absurd hc (by simp)
  have hlen : cs ≤ data.length := by omega
  have hcs0 : cs ≠ 0 := by omega
  obtain ⟨d, rest, hd⟩ : ∃ d rest, data = d :: rest := by
    cases data with
    | nil => simp at hlt
    | cons d rest => exact ⟨d, rest, rfl⟩
  have hread : (⟨data, e, []⟩ : File).Read (List.replicate cs (0 : Byte)).length
      = (data.take cs, none, ⟨data.drop cs, e, []⟩) := by
    simp [File.Read, hcs0, hd]
  have htl : (data.take cs).length = cs := by simp [hlen]
  have hbuf : data.take cs ++ (List.replicate cs (0 : Byte)).drop cs = data.take cs := by
    simp
  have hlast : lastRead (data.take cs) cs = some c := by
    simp only [lastRead, hcs0, if_false]
    rw [List.getElem?_take]
    simp [hcs, hc]
  simp only [runLoop, readLoop, initState, hread, hbuf, htl, hlast, hne, ne_eq,
    not_false_eq_true, if_true, extendLoop, Nat.lt_succ_self, if_false]

/-- The lemma above at the stream "ABC\0" and chunk size 2. -/
theorem runLoop_full_read_panics_witness :
    (runLoop 2 ⟨[65, 66, 67, 0], .eof, []⟩).1 = .panic :=
  runLoop_full_read_panics 2 [65, 66, 67, 0] .eof 66 (by decide) (by decide) (by decide)

/-! ## What a scan adds to the set -/

theorem scanSegment_union (S : SymbolSet) (b : List Byte) :
    scanSegment S b = S ∪ scanSegment ∅ b := by
  simp only [scanSegment]
  cases firstZero b with
  | none => simp
  | some i =>
    ext x
    simp only [Finset.mem_insert, Finset.mem_union, Finset.not_mem_empty, or_false]
    tauto

theorem foldl_scanSegment_union (S : SymbolSet) (segs : List (List Byte)) :
    segs.foldl scanSegment S = S ∪ segs.foldl scanSegment ∅ := by
  induction segs generalizing S with
  | nil => simp
  | cons b segs ih =>
    rw [List.foldl_cons, List.foldl_cons, ih (scanSegment S b), ih (scanSegment ∅ b),
      scanSegment_union S b, Finset.union_assoc]

theorem Split_nil (sep : List Byte) : Split [] sep = [[]] := rfl

theorem ScanBytes_fst (d : List Byte) (S : SymbolSet) :
    (ScanBytes d S).1 = (Split d prefixPattern).foldl scanSegment S := by
  cases d with
  | nil => rfl
  | cons c d => simp [ScanBytes]

theorem ScanBytes_eq_union (d : List Byte) (S : SymbolSet) :
    ScanBytes d S = (S ∪ (ScanBytes d ∅).1, none) := by
  rw [ScanBytes_eq d S, ScanBytes_fst, ScanBytes_fst, ← foldl_scanSegment_union]

/-- C16: a scan only adds to the set, and what it adds depends on the chunk
alone: the result is the union of the set with the result of scanning the chunk
into the empty set (for every chunk, the empty one included); so the set it was
given is contained in the result, and scanning a then b gives the same set as
scanning b then a. -/
theorem ScanBytes_union_comm (a b : List Byte) (S : SymbolSet) :
    ScanBytes a S = (S ∪ (ScanBytes a ∅).1, none) ∧
    S ⊆ (ScanBytes a S).1 ∧
    ScanBytes b (ScanBytes a S).1 = ScanBytes a (ScanBytes b S).1 := by
  refine ⟨ScanBytes_eq_union a S, ?_, ?_⟩
  · rw [ScanBytes_eq_union a S]
    exact Finset.subset_union_left
  · rw [ScanBytes_eq_union b (ScanBytes a S).1, ScanBytes_eq_union a (ScanBytes b S).1,
      ScanBytes_eq_union a S, ScanBytes_eq_union b S]
    simp only [Prod.mk.injEq, and_true]
    rw [Finset.union_assoc, Finset.union_assoc, Finset.union_comm (ScanBytes a ∅).1]

/-- C11: scanning is idempotent: a second scan of the same chunk returns the
same set (of the same size) as the first; and a chunk whose symbols are all in
the set already leaves the set as it is. -/
theorem ScanBytes_idempotent (d : List Byte) (S : SymbolSet) :
    ScanBytes d (ScanBytes d S).1 = ScanBytes d S ∧
    (ScanBytes d (ScanBytes d S).1).1.card = (ScanBytes d S).1.card ∧
    ((ScanBytes d ∅).1 ⊆ S → ScanBytes d S = (S, none)) := by
  have h1 : ScanBytes d (ScanBytes d S).1 = ScanBytes d S := by
    rw [ScanBytes_eq_union d (ScanBytes d S).1, ScanBytes_eq_union d S]
    simp only [Prod.mk.injEq, and_true]
    rw [Finset.union_assoc, Finset.union_self]
  refine ⟨h1, by rw [h1], fun h => ?_⟩
  rw [ScanBytes_eq_union d S, Finset.union_eq_left.mpr h]

/-- C11, at the chunk MARKER "foo\0" MARKER "foo\0" and the set that holds
"foo": the chunk leaves the set unchanged. -/
theorem ScanBytes_idempotent_witness :
    (ScanBytes (prefixPattern ++ [102, 111, 111, 0] ++ prefixPattern ++ [102, 111, 111, 0]) ∅).1
      ⊆ {[102, 111, 111]} ∧
    ScanBytes (prefixPattern ++ [102, 111, 111, 0] ++ prefixPattern ++ [102, 111, 111, 0])
      {[102, 111, 111]} = ({[102, 111, 111]}, none) :=
  ⟨by decide,
   (ScanBytes_idempotent (prefixPattern ++ [102, 111, 111, 0] ++ prefixPattern ++ [102, 111, 111, 0])
      {[102, 111, 111]}).2.2 (by decide)⟩

/-! ## The chunks handed to `ScanBytes` -/

theorem extendLoop_shape (fuel : Nat) (file : File) (buffer : List Byte) (bytesRead : Nat)
    (hb : bytesRead ≤ buffer.length) :
    (extendLoop fuel file buffer bytesRead).2.2.1.length = buffer.length ∧
    bytesRead ≤ (extendLoop fuel file buffer bytesRead).2.2.2 ∧
    (extendLoop fuel file buffer bytesRead).2.2.2 ≤ buffer.length := by
  induction fuel generalizing file buffer bytesRead with
  | zero => exact ⟨rfl, Nat.le_refl _, hb⟩
  | succ fuel ih =>
    rw [extendLoop]
    cases lastRead buffer bytesRead with
    | none => exact ⟨rfl, Nat.le_refl _, hb⟩
    | some c =>
      by_cases hc : c = 0
      · simp [hc, hb]
      · by_cases hlt : buffer.length < bytesRead + 1
        · simp [hc, hlt, hb]
        · simp only [hc, hlt, if_false]
          rcases Read_cases file 1 (by omega) with ⟨_, hr⟩ | ⟨p, f1, hr, hp, hp1, -⟩
          · simp [hr, hb]
          · simp only [hr]
            have hpl : p.length = 1 := by
              have : 0 < p.length := List.length_pos.mpr hp
              omega
            have hlen : (buffer.take bytesRead ++ p ++ buffer.drop (bytesRead + p.length)).length
                = buffer.length := by
              simp only [List.length_append, List.length_take, List.length_drop]
              omega
            have := ih f1 (buffer.take bytesRead ++ p ++ buffer.drop (bytesRead + p.length))
              (bytesRead + p.length) (by rw [hlen]; omega)
            rw [hlen] at this
            exact ⟨this.1, by omega, this.2.2⟩

/-- The invariant of the read loop: the chunks it hands to `ScanBytes` are
non-empty and no longer than the buffer, the map is the result of scanning them
in order, and the buffer keeps its length. -/
theorem readLoop_trace (fuel : Nat) (st : LoopState) :
    ∃ new : List (List Byte),
      (readLoop fuel st).2.chunks = st.chunks ++ new ∧
      (∀ c ∈ new, 1 ≤ c.length ∧ c.length ≤ st.buffer.length) ∧
      (readLoop fuel st).2.symbolmap = new.foldl (fun S c => (ScanBytes c S).1) st.symbolmap ∧
      (readLoop fuel st).2.buffer.length = st.buffer.length := by
  induction fuel generalizing st with
  | zero => exact ⟨[], by simp [readLoop]⟩
  | succ fuel ih =>
    rw [readLoop]
    by_cases hn : st.buffer.length = 0
    · have hr : st.file.Read st.buffer.length = ([], none, st.file) := by simp [File.Read, hn]
      exact ⟨[], by simp [hr, lastRead]⟩
    · rcases Read_cases st.file _ hn with ⟨hd, hr⟩ | ⟨p, f1, hr, hp, hpl, hdata, _⟩
      · exact ⟨[], by simp [hr]⟩
      · simp only [hr]
        have hpos : 1 ≤ p.length := List.length_pos.mpr hp
        have hbuf : (p ++ st.buffer.drop p.length).length = st.buffer.length := by
          simp only [List.length_append, List.length_drop]
          omega
        cases lastRead (p ++ st.buffer.drop p.length) p.length with
        | none => exact ⟨[], by simp⟩
        | some c =>
          simp only
          have hext := extendLoop_shape (f1.data.length + 1) f1
            (p ++ st.buffer.drop p.length) p.length (by rw [hbuf]; exact hpl)
          have hstep : ∀ (f2 : File) (b2 : List Byte) (n2 : Nat),
              b2.length = st.buffer.length → p.length ≤ n2 → n2 ≤ st.buffer.length →
              ∃ new : List (List Byte),
                (readLoop fuel (⟨f2, b2, st.hasher ++ b2.take n2, (ScanBytes (b2.take n2) st.symbolmap).1,
                    st.chunks ++ [b2.take n2]⟩ : LoopState)).2.chunks = st.chunks ++ new ∧
                (∀ c ∈ new, 1 ≤ c.length ∧ c.length ≤ st.buffer.length) ∧
                (readLoop fuel (⟨f2, b2, st.hasher ++ b2.take n2, (ScanBytes (b2.take n2) st.symbolmap).1,
                    st.chunks ++ [b2.take n2]⟩ : LoopState)).2.symbolmap
                  = new.foldl (fun S c => (ScanBytes c S).1) st.symbolmap ∧
                (readLoop fuel (⟨f2, b2, st.hasher ++ b2.take n2, (ScanBytes (b2.take n2) st.symbolmap).1,
                    st.chunks ++ [b2.take n2]⟩ : LoopState)).2.buffer.length
                  = st.buffer.length := by
            intro f2 b2 n2 hb2 h1 h2
            obtain ⟨new, e1, e2, e3, e4⟩ := ih (⟨f2, b2, st.hasher ++ b2.take n2, (ScanBytes (b2.take n2) st.symbolmap).1,
                    st.chunks ++ [b2.take n2]⟩ : LoopState)
            refine ⟨b2.take n2 :: new, ?_, ?_, ?_, ?_⟩
            · rw [e1]; simp
            · intro c hc
              rcases List.mem_cons.mp hc with rfl | hc
              · simp only [List.length_take]
                omega
              · have := e2 c hc
                simp only at this
                omega
            · rw [e3]; rfl
            · rw [e4]; exact hb2
          by_cases hc : c = 0
          · simp only [hc, ne_eq, not_true_eq_false, if_false]
            rw [ScanBytes_eq]
            exact hstep f1 _ _ hbuf (Nat.le_refl _) hpl
          · simp only [hc, ne_eq, not_false_eq_true, if_true]
            have hexit := extendLoop_ne_scanError (f1.data.length + 1) f1
              (p ++ st.buffer.drop p.length) p.length
            generalize extendLoop (f1.data.length + 1) f1 (p ++ st.buffer.drop p.length) p.length
              = ext at hext hexit
            obtain ⟨e, f2, b2, n2⟩ := ext
            simp only at hext hexit
            cases e with
            | broke =>
              simp only
              rw [ScanBytes_eq]
              exact hstep f2 b2 n2 (hext.1.trans hbuf) hext.2.1 (hbuf ▸ hext.2.2)
            | scanError e => exact absurd rfl (hexit e)
            | panic => exact ⟨[], by simp⟩
            | outOfFuel => exact ⟨[], by simp⟩

theorem runLoop_trace (cs : Nat) (file : File) :
    (∀ c ∈ (runLoop cs file).2.chunks, 1 ≤ c.length ∧ c.length ≤ cs) ∧
    (runLoop cs file).2.symbolmap
      = (runLoop cs file).2.chunks.foldl (fun S c => (ScanBytes c S).1) ∅ ∧
    (runLoop cs file).2.buffer.length = cs := by
  obtain ⟨new, e1, e2, e3, e4⟩ := readLoop_trace (file.data.length + 1) (initState cs file)
  simp only [initState, List.nil_append, List.length_replicate] at e1 e2 e3 e4
  simp only [runLoop, initState]
  rw [e1]
  exact ⟨e2, e3, e4⟩

/-- C12: every chunk that `processFile` hashes and hands to `ScanBytes` has at
least one byte and at most `chunkSize` bytes, and the buffer keeps the length
`chunkSize`, for every input file and every chunk size. -/
theorem chunks_within_chunkSize (cs : Nat) (file : File) (c : List Byte)
    (hc : c ∈ (runLoop cs file).2.chunks) :
    1 ≤ c.length ∧ c.length ≤ cs ∧ (runLoop cs file).2.buffer.length = cs :=
  ⟨((runLoop_trace cs file).1 c hc).1, ((runLoop_trace cs file).1 c hc).2,
    (runLoop_trace cs file).2.2⟩

/-- C12, at the stream 1 1 0 1 1 1 0 1 read with chunk size 4 and short reads: the
second chunk has been extended to four bytes. -/
theorem chunks_within_chunkSize_witness :
    [1, 1, 1, 0] ∈ (runLoop 4 ⟨[1, 1, 0, 1, 1, 1, 0, 1], .eof, [3, 1]⟩).2.chunks ∧
    1 ≤ ([1, 1, 1, 0] : List Byte).length ∧ ([1, 1, 1, 0] : List Byte).length ≤ 4 ∧
    (runLoop 4 ⟨[1, 1, 0, 1, 1, 1, 0, 1], .eof, [3, 1]⟩).2.buffer.length = 4 :=
  ⟨by decide,
   chunks_within_chunkSize 4 ⟨[1, 1, 0, 1, 1, 1, 0, 1], .eof, [3, 1]⟩ [1, 1, 1, 0] (by decide)⟩

/-! ## The symbol list -/

theorem rangeKeys_perm (symbolmap : SymbolSet) :
    ∃ l : List Symbol, symbolmap.val = (l : Multiset Symbol) ∧ (rangeKeys symbolmap).Perm l := by
  obtain ⟨l, hl⟩ := Quot.exists_rep symbolmap.val
  refine ⟨l, hl.symm, ?_⟩
  simp only [rangeKeys]
  rw [← hl]
  exact List.perm_insertionSort _ l

theorem rangeKeys_nodup (symbolmap : SymbolSet) : (rangeKeys symbolmap).Nodup := by
  obtain ⟨l, hl, hp⟩ := rangeKeys_perm symbolmap
  have hn : (l : Multiset Symbol).Nodup := hl ▸ symbolmap.nodup
  exact hp.nodup_iff.mpr (Multiset.coe_nodup.mp hn)

theorem mem_rangeKeys (symbolmap : SymbolSet) (x : Symbol) :
    x ∈ rangeKeys symbolmap ↔ x ∈ symbolmap := by
  obtain ⟨l, hl, hp⟩ := rangeKeys_perm symbolmap
  rw [hp.mem_iff, ← Finset.mem_val, hl, Multiset.mem_coe]

theorem length_rangeKeys (symbolmap : SymbolSet) :
    (rangeKeys symbolmap).length = symbolmap.card := by
  obtain ⟨l, hl, hp⟩ := rangeKeys_perm symbolmap
  rw [hp.length_eq, Finset.card_def, hl, Multiset.coe_card]

/-- C14: the symbol list that `processFile` returns has no duplicates and holds
exactly the symbols of the set accumulated by scanning the chunks in order, each
once; its length is the number of distinct symbols. -/
theorem processFile_symbols (cs : Nat) (file : File) (symbols : List Symbol) (hash : String)
    (err : Option Error) (h : processFile cs (.ok file) = .returned symbols hash err) :
    symbols.Nodup ∧
    (∀ x, x ∈ symbols ↔
      x ∈ (runLoop cs file).2.chunks.foldl (fun S c => (ScanBytes c S).1) ∅) ∧
    symbols.length
      = ((runLoop cs file).2.chunks.foldl (fun S c => (ScanBytes c S).1) ∅).card := by
  have ht := (runLoop_trace cs file).2.1
  have hs := (readLoop_hasher (file.data.length + 1) (initState cs file)).2.2
  simp only [processFile] at h
  rw [← ht]
  simp only [runLoop] at h ⊢
  generalize readLoop (file.data.length + 1) (initState cs file) = res at h hs
  obtain ⟨e, st⟩ := res
  cases e with
  | broke =>
    simp only [Outcome.returned.injEq] at h
    rw [← h.1]
    exact ⟨rangeKeys_nodup _, mem_rangeKeys _, length_rangeKeys _⟩
  | scanError e => exact absurd rfl (hs e)
  | panic => simp at h
  | outOfFuel => simp at h

/-- C14, at the stream MARKER "b\0" MARKER "a\0" MARKER "b\0" read with chunk size
64: the marker and "b" occur twice, and the list holds "a" and "b" once each. -/
theorem processFile_symbols_witness :
    processFile 64 (.ok ⟨prefixPattern ++ [98, 0] ++ prefixPattern ++ [97, 0]
        ++ prefixPattern ++ [98, 0], .eof, []⟩)
      = .returned [[97], [98]]
          (sha256hex (prefixPattern ++ [98, 0] ++ prefixPattern ++ [97, 0]
            ++ prefixPattern ++ [98, 0])) none ∧
    ([[97], [98]] : List Symbol).Nodup ∧
    ([[97], [98]] : List Symbol).length
      = ((runLoop 64 ⟨prefixPattern ++ [98, 0] ++ prefixPattern ++ [97, 0]
          ++ prefixPattern ++ [98, 0], .eof, []⟩).2.chunks.foldl
            (fun S c => (ScanBytes c S).1) ∅).card :=
  ⟨by decide,
   (processFile_symbols 64
      ⟨prefixPattern ++ [98, 0] ++ prefixPattern ++ [97, 0] ++ prefixPattern ++ [98, 0], .eof, []⟩
      [[97], [98]]
      (sha256hex (prefixPattern ++ [98, 0] ++ prefixPattern ++ [97, 0] ++ prefixPattern ++ [98, 0]))
      none (by decide)).1,
   (processFile_symbols 64
      ⟨prefixPattern ++ [98, 0] ++ prefixPattern ++ [97, 0] ++ prefixPattern ++ [98, 0], .eof, []⟩
      [[97], [98]]
      (sha256hex (prefixPattern ++ [98, 0] ++ prefixPattern ++ [97, 0] ++ prefixPattern ++ [98, 0]))
      none (by decide)).2.2⟩

/-! ## The slice expression of the extension loop -/

theorem getElem?_replicate_last (n : Nat) (hn : 0 < n) (a : Byte) :
    (List.replicate n a)[n - 1]? = some a := by
  rw [List.getElem?_replicate]
  simp [hn]

theorem processFile_full_read_panics (cs : Nat) (data : List Byte) (e : Error) (c : Byte)
    (hcs : 0 < cs) (hc : data[cs - 1]? = some c) (hne : c ≠ 0) :
    processFile cs (.ok ⟨data, e, []⟩) = .panicked := by
  have h := runLoop_full_read_panics cs data e c hcs hc hne
  simp only [processFile]
  generalize runLoop cs ⟨data, e, []⟩ = res at h
  obtain ⟨x, st⟩ := res
  simp only at h
  subst h
  rfl

/-- C15: a file of `chunkSize` bytes, each of them 1, read at the chunk size of
the program: the first read fills the buffer, its last byte is not zero, and the
loop panics on `buffer[bytesRead : bytesRead+1]`; so does the stream "ABC\0" at
chunk size 2. -/
theorem processFile_panics_on_full_buffer :
    processFile chunkSize (.ok ⟨List.replicate chunkSize 1, .eof, []⟩) = .panicked ∧
    processFile 2 (.ok ⟨[65, 66, 67, 0], .eof, []⟩) = .panicked :=
  ⟨processFile_full_read_panics chunkSize (List.replicate chunkSize 1) .eof 1 (by decide)
      (getElem?_replicate_last chunkSize (by decide) 1) (by decide),
   by decide⟩

/-! ## Chunks that end with a zero byte -/

theorem Index_eq_none_iff_absent (s sep : List Byte) :
    Index s sep = none ↔ ¬ sep <:+: s := by
  rw [Index_eq_none_iff]
  constructor
  · rintro h ⟨u, v, huv⟩
    refine h u.length (by rw [← huv]; simp) ?_
    rw [← huv, List.append_assoc, List.drop_left]
    exact List.prefix_append _ _
  · intro h i _ hp
    exact h (hp.isInfix.trans (List.drop_suffix i s).isInfix)

theorem Index_append_singleton_zero {sep : List Byte} (hsep : sep ≠ []) (h0 : (0 : Byte) ∉ sep)
    (R : List Byte) : Index (R ++ [0]) sep = Index R sep := by
  cases h : Index R sep with
  | none => exact Index_append_zero ((Index_eq_none_iff_absent R sep).mp h) h0 hsep
  | some m => exact Index_append_of_some h _

theorem Index_append_zero_of_none {sep : List Byte} (h0 : (0 : Byte) ∉ sep) (R B : List Byte)
    (h : Index R sep = none) :
    Index (R ++ 0 :: B) sep = (Index B sep).map (· + (R.length + 1)) := by
  have hR := (Index_eq_none_iff_absent R sep).mp h
  have hdrop : ∀ i, R.length + 1 ≤ i → (R ++ 0 :: B).drop i = B.drop (i - (R.length + 1)) := by
    intro i hi
    have e : R ++ 0 :: B = (R ++ [0]) ++ B := by simp
    rw [e, List.drop_append_eq_append_drop, List.drop_eq_nil_of_le (by simp; omega)]
    simp
  cases hB : Index B sep with
  | none =>
    simp only [Option.map_none']
    rw [Index_eq_none_iff] at hB ⊢
    intro i hi
    by_cases hle : i ≤ R.length
    · exact not_prefix_drop_append_zero hR h0 B i hle
    · rw [hdrop i (by omega)]
      exact hB _ (by simp at hi; omega)
  | some k =>
    rw [Index_eq_some_iff] at hB
    obtain ⟨h1, h2, h3⟩ := hB
    simp only [Option.map_some']
    rw [Index_eq_some_iff]
    refine ⟨by simp; omega, ?_, fun i hi => ?_⟩
    · rw [hdrop _ (by omega)]
      simpa using h2
    · by_cases hle : i ≤ R.length
      · exact not_prefix_drop_append_zero hR h0 B i hle
      · rw [hdrop i (by omega)]
        exact h3 _ (by omega)

theorem firstZero_append_of_some {X : List Byte} {i : Nat} (h : firstZero X = some i)
    (Y : List Byte) : firstZero (X ++ Y) = some i ∧ i < X.length := by
  induction X generalizing i with
  | nil => simp [firstZero] at h
  | cons c X ih =>
    simp only [firstZero, List.cons_append] at h ⊢
    by_cases hc : c = 0
    · simp only [hc, if_true, Option.some.injEq] at h ⊢
      exact ⟨h, by rw [← h]; simp⟩
    · simp only [hc, if_false, Option.map_eq_some'] at h ⊢
      obtain ⟨j, hj, rfl⟩ := h
      exact ⟨⟨j, (ih hj).1, rfl⟩, by simp; exact (ih hj).2⟩

theorem firstZero_isSome_of_mem {X : List Byte} (h : (0 : Byte) ∈ X) :
    ∃ i, firstZero X = some i := by
  cases hX : firstZero X with
  | some i => exact ⟨i, rfl⟩
  | none =>
    exfalso
    induction X with
    | nil => simp at h
    | cons c X ih =>
      simp only [firstZero] at hX
      by_cases hc : c = 0
      · simp [hc] at hX
      · simp only [hc, if_false, Option.map_eq_none'] at hX
        rcases List.mem_cons.mp h with h | h
        · exact hc h.symm
        · exact ih h hX

theorem scanSegment_append_of_mem (S : SymbolSet) {X : List Byte} (h : (0 : Byte) ∈ X)
    (Y : List Byte) : scanSegment S (X ++ Y) = scanSegment S X := by
  obtain ⟨i, hi⟩ := firstZero_isSome_of_mem h
  obtain ⟨h1, h2⟩ := firstZero_append_of_some hi Y
  simp only [scanSegment, h1, hi]
  rw [List.take_append_of_le_length (by omega)]

theorem foldl_scanSegment_cons (b : List Byte) (segs : List (List Byte)) :
    (b :: segs).foldl scanSegment ∅ = scanSegment ∅ b ∪ segs.foldl scanSegment ∅ := by
  rw [List.foldl_cons, foldl_scanSegment_union]

/-- Cutting a stream after a zero byte loses no symbol: what the scan finds in
the whole is found in the part up to that zero byte or in the part after it. -/
theorem Split_foldl_append_zero {sep : List Byte} (hsep : sep ≠ []) (h0 : (0 : Byte) ∉ sep)
    (R B : List Byte) :
    (Split (R ++ 0 :: B) sep).foldl scanSegment ∅
      ⊆ (Split (R ++ [0]) sep).foldl scanSegment ∅ ∪ (Split B sep).foldl scanSegment ∅ := by
  obtain ⟨n, hn⟩ : ∃ n, R.length = n := ⟨_, rfl⟩
  induction n using Nat.strong_induction_on generalizing R with
  | _ n ih =>
    subst hn
    have hmem : (0 : Byte) ∈ R ++ [0] := by simp
    cases hI : Index R sep with
    | none =>
      have hR0 : Index (R ++ [0]) sep = none := by rw [Index_append_singleton_zero hsep h0, hI]
      rw [Split_of_Index_none hR0]
      have hRB := Index_append_zero_of_none h0 R B hI
      cases hB : Index B sep with
      | none =>
        rw [hB] at hRB
        rw [Split_of_Index_none hRB, Split_of_Index_none hB]
        have e : R ++ 0 :: B = (R ++ [0]) ++ B := by simp
        simp only [List.foldl_cons, List.foldl_nil]
        rw [e, scanSegment_append_of_mem ∅ hmem]
        exact Finset.subset_union_left
      | some k =>
        rw [hB] at hRB
        simp only [Option.map_some'] at hRB
        have hk := ((Index_eq_some_iff B sep k).mp hB).1
        rw [Split_of_Index_some hsep hRB, Split_of_Index_some hsep hB]
        have e : R ++ 0 :: B = (R ++ [0]) ++ B := by simp
        have e1 : (R ++ 0 :: B).take (k + (R.length + 1)) = (R ++ [0]) ++ B.take k := by
          have : k + (R.length + 1) = (R ++ [0]).length + k := by simp; omega
          rw [e, this, List.take_append]
        have e2 : (R ++ 0 :: B).drop (k + (R.length + 1) + sep.length)
            = B.drop (k + sep.length) := by
          have : k + (R.length + 1) + sep.length = (R ++ [0]).length + (k + sep.length) := by
            simp; omega
          rw [e, this, List.drop_append]
        rw [e1, e2, foldl_scanSegment_cons (R ++ [0] ++ B.take k),
          foldl_scanSegment_cons (B.take k), scanSegment_append_of_mem ∅ hmem]
        simp only [List.foldl_cons, List.foldl_nil]
        intro x hx
        simp only [Finset.mem_union] at hx ⊢
        tauto
    | some m =>
      have hm := (Index_eq_some_iff R sep m).mp hI
      have hlen : sep.length ≤ (R.drop m).length := hm.2.1.length_le
      have hle : m + sep.length ≤ R.length := by
        simp only [List.length_drop] at hlen
        have := hm.1
        have hpos : 0 < sep.length := List.length_pos.mpr hsep
        omega
      have hpos : 0 < sep.length := List.length_pos.mpr hsep
      rw [Split_of_Index_some hsep (Index_append_of_some hI (0 :: B)),
        Split_of_Index_some hsep (Index_append_of_some hI [0]),
        List.take_append_of_le_length (by omega), List.take_append_of_le_length (by omega),
        List.drop_append_of_le_length hle, List.drop_append_of_le_length hle,
        foldl_scanSegment_cons, foldl_scanSegment_cons]
      have := ih (R.length - (m + sep.length)) (by omega) (R.drop (m + sep.length))
        (by simp)
      intro x hx
      simp only [Finset.mem_union] at hx ⊢
      rcases hx with hx | hx
      · exact Or.inl (Or.inl hx)
      · have := this hx
        simp only [Finset.mem_union] at this
        tauto

theorem foldl_ScanBytes_union (chunks : List (List Byte)) (S : SymbolSet) :
    chunks.foldl (fun S c => (ScanBytes c S).1) S
      = S ∪ chunks.foldl (fun S c => (ScanBytes c S).1) ∅ := by
  induction chunks generalizing S with
  | nil => simp
  | cons c chunks ih =>
    rw [List.foldl_cons, List.foldl_cons, ih (ScanBytes c S).1, ih (ScanBytes c ∅).1,
      ScanBytes_eq_union c S, Finset.union_assoc]

theorem ScanBytes_append_zero_subset (R B : List Byte) :
    (ScanBytes (R ++ 0 :: B) ∅).1 ⊆ (ScanBytes (R ++ [0]) ∅).1 ∪ (ScanBytes B ∅).1 := by
  rw [ScanBytes_fst, ScanBytes_fst, ScanBytes_fst]
  exact Split_foldl_append_zero prefixPattern_ne_nil zero_not_mem_prefixPattern R B

/-- C13: no symbol is lost to chunking: when every chunk but the last ends with
a zero byte, every symbol that a scan of the whole stream as one chunk extracts
is in the set obtained by scanning the chunks in order from the empty set. -/
theorem ScanBytes_chunks_superset (chunks : List (List Byte))
    (h : ∀ c ∈ chunks.dropLast, c.getLast? = some 0) :
    (ScanBytes chunks.flatten ∅).1 ⊆ chunks.foldl (fun S c => (ScanBytes c S).1) ∅ := by
  induction chunks with
  | nil => simp [ScanBytes]
  | cons c chunks ih =>
    cases chunks with
    | nil => simp
    | cons c2 chunks =>
      have hc : c.getLast? = some 0 := h c (by simp [List.dropLast])
      obtain ⟨R, rfl⟩ : ∃ R, c = R ++ [0] := by
        rcases List.eq_nil_or_concat c with rfl | ⟨R, z, rfl⟩
        · simp at hc
        · rw [List.concat_eq_append] at hc ⊢
          have hz : z = 0 := by simpa using hc
          exact ⟨R, by rw [hz]⟩
      have ih2 := ih fun x hx => h x (by
        simp only [List.dropLast_cons₂, List.mem_cons]
        exact Or.inr hx)
      have e : (((R ++ [0]) :: c2 :: chunks).flatten) = R ++ 0 :: (c2 :: chunks).flatten := by
        simp
      rw [e, List.foldl_cons, foldl_ScanBytes_union]
      exact (ScanBytes_append_zero_subset R _).trans (Finset.union_subset_union_right ih2)

/-- C13, at the chunks MARKER "foo\0" and "junk\0" MARKER "bar\0": the scan of the
whole stream gives "foo" and "bar", the scan of the chunks "junk" as well. -/
theorem ScanBytes_chunks_superset_witness :
    (∀ c ∈ [prefixPattern ++ [102, 111, 111, 0],
        [106, 117, 110, 107, 0] ++ prefixPattern ++ [98, 97, 114, 0]].dropLast,
      c.getLast? = some 0) ∧
    (ScanBytes [prefixPattern ++ [102, 111, 111, 0],
        [106, 117, 110, 107, 0] ++ prefixPattern ++ [98, 97, 114, 0]].flatten ∅).1
      ⊆ [prefixPattern ++ [102, 111, 111, 0],
          [106, 117, 110, 107, 0] ++ prefixPattern ++ [98, 97, 114, 0]].foldl
            (fun S c => (ScanBytes c S).1) ∅ :=
  ⟨by decide,
   ScanBytes_chunks_superset [prefixPattern ++ [102, 111, 111, 0],
     [106, 117, 110, 107, 0] ++ prefixPattern ++ [98, 97, 114, 0]] (by decide)⟩

/-! ## The shape of the extracted symbols -/

theorem genSplitLoop_contiguous (sep : List Byte) (k : Nat) (s : List Byte) :
    ∀ seg ∈ genSplitLoop sep k s, seg <:+: s := by
  induction k generalizing s with
  | zero => simp [genSplitLoop]
  | succ k ih =>
    simp only [genSplitLoop]
    cases Index s sep with
    | none => simp
    | some m =>
      intro seg hseg
      rcases List.mem_cons.mp hseg with rfl | hseg
      · exact (List.take_prefix _ _).isInfix
      · exact (ih _ seg hseg).trans (List.drop_suffix _ _).isInfix

theorem Split_segment_contiguous (s sep : List Byte) : ∀ seg ∈ Split s sep, seg <:+: s :=
  genSplitLoop_contiguous sep _ s

/-- No segment of the split contains the separator. -/
theorem Split_segment_sep_free {sep : List Byte} (hsep : sep ≠ []) (s : List Byte) :
    ∀ seg ∈ Split s sep, ¬ sep <:+: seg := by
  have hpos : 0 < sep.length := List.length_pos.mpr hsep
  obtain ⟨n, hn⟩ : ∃ n, s.length = n := ⟨_, rfl⟩
  induction n using Nat.strong_induction_on generalizing s with
  | _ n ih =>
    subst hn
    cases hI : Index s sep with
    | none =>
      rw [Split_of_Index_none hI]
      intro seg hseg
      rw [List.mem_singleton.mp hseg]
      exact (Index_eq_none_iff_absent s sep).mp hI
    | some m =>
      obtain ⟨h1, h2, h3⟩ := (Index_eq_some_iff s sep m).mp hI
      have hlen : sep.length ≤ (s.drop m).length := h2.length_le
      simp only [List.length_drop] at hlen
      rw [Split_of_Index_some hsep hI]
      intro seg hseg
      rcases List.mem_cons.mp hseg with rfl | hseg
      · rintro ⟨u, v, huv⟩
        have hl : (u ++ sep ++ v).length ≤ m := by rw [huv]; exact List.length_take_le _ _
        simp only [List.length_append] at hl
        refine h3 u.length (by omega) ?_
        have hs : s = u ++ (sep ++ (v ++ s.drop m)) := by
          conv_lhs => rw [← List.take_append_drop m s, ← huv]
          simp
        rw [hs, List.drop_left]
        exact List.prefix_append _ _
      · exact ih _ (by simp only [List.length_drop]; omega) _ rfl seg hseg

theorem firstZero_spec {b : List Byte} {i : Nat} (h : firstZero b = some i) :
    (0 : Byte) ∉ b.take i ∧ b.take i ++ [0] <+: b := by
  induction b generalizing i with
  | nil => simp [firstZero] at h
  | cons c b ih =>
    simp only [firstZero] at h
    by_cases hc : c = 0
    · simp only [hc, if_true, Option.some.injEq] at h
      subst h
      subst hc
      simp
    · simp only [hc, if_false, Option.map_eq_some'] at h
      obtain ⟨j, hj, rfl⟩ := h
      obtain ⟨h1, h2⟩ := ih hj
      refine ⟨?_, ?_⟩
      · simp only [List.take_succ_cons, List.mem_cons, not_or]
        exact ⟨fun h => hc h.symm, h1⟩
      · simp only [List.take_succ_cons, List.cons_append, List.cons_prefix_cons, true_and]
        exact h2

theorem mem_foldl_scanSegment (segs : List (List Byte)) (S : SymbolSet) (x : Symbol) :
    x ∈ segs.foldl scanSegment S ↔
      x ∈ S ∨ ∃ b ∈ segs, ∃ i, firstZero b = some i ∧ x = b.take i := by
  induction segs generalizing S with
  | nil => simp
  | cons b segs ih =>
    rw [List.foldl_cons, ih]
    simp only [scanSegment, List.mem_cons, exists_eq_or_imp]
    cases hb : firstZero b with
    | none => simp
    | some i =>
      simp only [Finset.mem_insert, Option.some.injEq, exists_eq_left']
      tauto

/-- C17: every symbol that a scan extracts from a chunk contains no zero byte
and no occurrence of the marker, and is a contiguous part of the chunk that is
followed there by a zero byte; the empty string is extracted exactly when a
segment of the marker split begins with a zero byte. -/
theorem ScanBytes_symbol_shape (d : List Byte) :
    (∀ x ∈ (ScanBytes d ∅).1,
      (0 : Byte) ∉ x ∧ ¬ prefixPattern <:+: x ∧ x ++ [0] <:+: d) ∧
    ([] ∈ (ScanBytes d ∅).1 ↔ ∃ b ∈ Split d prefixPattern, b.head? = some 0) := by
  rw [ScanBytes_fst]
  constructor
  · intro x hx
    rcases (mem_foldl_scanSegment _ _ x).mp hx with hx | ⟨b, hb, i, hi, rfl⟩
    · simp at hx
    · obtain ⟨h1, h2⟩ := firstZero_spec hi
      refine ⟨h1, fun hinf => ?_, h2.isInfix.trans (Split_segment_contiguous d prefixPattern b hb)⟩
      exact Split_segment_sep_free prefixPattern_ne_nil d b hb
        (hinf.trans (List.take_prefix i b).isInfix)
  · rw [mem_foldl_scanSegment]
    constructor
    · rintro (hx | ⟨b, hb, i, hi, hnil⟩)
      · simp at hx
      · obtain ⟨_, h2⟩ := firstZero_spec hi
        rw [← hnil] at h2
        obtain ⟨t, ht⟩ := h2
        exact ⟨b, hb, by rw [← ht]; rfl⟩
    · rintro ⟨b, hb, hhead⟩
      refine Or.inr ⟨b, hb, 0, ?_, rfl⟩
      cases b with
      | nil => simp at hhead
      | cons c b =>
        simp only [List.head?_cons, Option.some.injEq] at hhead
        simp [firstZero, hhead]

/-- C17, at the chunk MARKER "\0" MARKER "ab\0": the empty string is extracted,
and the segment after the first marker begins with a zero byte. -/
theorem ScanBytes_symbol_shape_witness :
    (ScanBytes (prefixPattern ++ [0] ++ prefixPattern ++ [97, 98, 0]) ∅).1 = {[], [97, 98]} ∧
    [0] ∈ Split (prefixPattern ++ [0] ++ prefixPattern ++ [97, 98, 0]) prefixPattern ∧
    ([] : Symbol) ∈ (ScanBytes (prefixPattern ++ [0] ++ prefixPattern ++ [97, 98, 0]) ∅).1 :=
  ⟨by decide, by decide,
   (ScanBytes_symbol_shape (prefixPattern ++ [0] ++ prefixPattern ++ [97, 98, 0])).2.mpr
     ⟨[0], by decide, rfl⟩⟩

end EvrFindSymbols
